import Mathlib

/-!
# tuplespace: a Linda-style tuple space

Shallow embedding of `src/tuplespace.hpp` (class `tuplespace`); the class
`simpletuplespace` of `src/tuplespace.cpp` has the same sequential code.

Modelling decisions
* `int` is `Int`: the code only stores, copies and compares integers, it never
  computes with them, so no wrap-around can occur.
* `double` is an IEEE-754 binary64 datum given by its three fields; `==` and `<`
  are the IEEE comparisons (a NaN is unequal to and unordered with everything,
  the two zeros are equal).
* `std::string` is `String`; `<` is the lexicographic order on its characters.
* `int*`, `double*`, `std::string*` are addresses (`Nat`) into a typed memory
  `Mem` owned by the caller; every address is a valid object.
* `std::vector` is `List`; `std::multiset<ptuple>` is the list of its elements
  in iteration order, an iterator is a position in that list. The comparisons
  are those of C++20. Where C++ specifies the place of an inserted element
  (`InsertSpecified`) the model follows it.
* Locks, the condition variable and `notify_all` have no sequential effect and
  are not part of the model of the calls: one call is one atomic step. The
  order in which `put` and `copytake` take the two locks is modelled on its
  own, as lock actions of interleaved threads (`LockState`).
-/

namespace tuplespace

/-! ## Values -/

/-- IEEE-754 binary64: sign bit, 11-bit biased exponent, 52-bit fraction. -/
structure Double where
  sign : Bool
  expo : Fin 2048
  frac : Fin 4503599627370496
deriving DecidableEq

namespace Double

/-- Not-a-number data: exponent all ones, fraction non-zero. -/
def isNaN (d : Double) : Bool := d.expo.val == 2047 && d.frac.val != 0

/-- Sign-magnitude reading of the bits; on data that are not NaN it is strictly
monotone in the represented real (or infinite) number, and both zeros get 0. -/
def key (d : Double) : Int :=
  if d.sign then -((d.expo.val * 4503599627370496 + d.frac.val : Nat) : Int)
  else ((d.expo.val * 4503599627370496 + d.frac.val : Nat) : Int)

/-- The `==` of `double`. -/
def eq (a b : Double) : Bool := !a.isNaN && !b.isNaN && a.key == b.key

/-- The `<` of `double`. -/
def lt (a b : Double) : Bool := !a.isNaN && !b.isNaN && decide (a.key < b.key)

/-- The datum 1.2 (0x3FF3333333333333). -/
def d1_2 : Double := ⟨false, ⟨1023, by decide⟩, ⟨0x3333333333333, by decide⟩⟩

/-- The datum 4.0 (0x4010000000000000). -/
def d4_0 : Double := ⟨false, ⟨1025, by decide⟩, ⟨0, by decide⟩⟩

/-- The datum +0.0. -/
def posZero : Double := ⟨false, ⟨0, by decide⟩, ⟨0, by decide⟩⟩

/-- The datum -0.0. -/
def negZero : Double := ⟨true, ⟨0, by decide⟩, ⟨0, by decide⟩⟩

/-- A quiet NaN (0x7FF8000000000000). -/
def nan : Double := ⟨false, ⟨2047, by decide⟩, ⟨0x8000000000000, by decide⟩⟩

end Double

/-- The `operator<` of `std::string`: lexicographic on the characters. -/
def chars_lt : List Char → List Char → Bool
  | [], [] => false
  | [], _ :: _ => true
  | _ :: _, [] => false
  | a :: as, b :: bs =>
    if a.toNat < b.toNat then true
    else if b.toNat < a.toNat then false
    else chars_lt as bs

/-- The type `elem`: `using elem = std::variant<int, double, std::string>`. -/
inductive elem where
  | int (v : Int)
  | dbl (v : Double)
  | str (v : String)
deriving DecidableEq

/-- The type `tuple`: `using tuple = std::vector<elem>`. -/
abbrev tuple := List elem

/-- The `operator==` of the variant `elem`: same alternative and equal contents. -/
def elem.eq : elem → elem → Bool
  | .int a, .int b => a == b
  | .dbl a, .dbl b => a.eq b
  | .str a, .str b => a == b
  | _, _ => false

/-- The type `pelem`:
`using pelem = std::variant<int, int*, double, double*, std::string, std::string*>`. -/
inductive pelem where
  | int (v : Int)
  | intp (p : Nat)
  | dbl (v : Double)
  | dblp (p : Nat)
  | str (v : String)
  | strp (p : Nat)
deriving DecidableEq

/-- The type `ptuple`: `using ptuple = std::vector<pelem>`. -/
abbrev ptuple := List pelem

/-- The member `std::variant::index()` on `pelem`. -/
def pelem.index : pelem → Nat
  | .int _ => 0
  | .intp _ => 1
  | .dbl _ => 2
  | .dblp _ => 3
  | .str _ => 4
  | .strp _ => 5

/-- The `operator==` of the variant `pelem`: same alternative and equal contents. -/
def pelem.eq : pelem → pelem → Bool
  | .int a, .int b => a == b
  | .intp a, .intp b => a == b
  | .dbl a, .dbl b => a.eq b
  | .dblp a, .dblp b => a == b
  | .str a, .str b => a == b
  | .strp a, .strp b => a == b
  | _, _ => false

/-- The `operator<` of the variant `pelem`: by index first, then by the contents
(pointers by address). -/
def pelem.lt (a b : pelem) : Bool :=
  if a.index < b.index then true
  else if b.index < a.index then false
  else
    match a, b with
    | .int x, .int y => decide (x < y)
    | .intp x, .intp y => decide (x < y)
    | .dbl x, .dbl y => x.lt y
    | .dblp x, .dblp y => decide (x < y)
    | .str x, .str y => chars_lt x.data y.data
    | .strp x, .strp y => decide (x < y)
    | _, _ => false

/-- The `operator<` of `std::vector<pelem>`, the ordering of the multiset
`tuples`. The source is C++20 (it uses template lambdas), where this operator
is `(a <=> b) < 0` and `<=>` of vectors is
`std::lexicographical_compare_three_way`: the first pair of elements whose
`<=>` is not `equivalent` decides, and the answer is true only if that pair is
`less`; a pair that is `greater` or `unordered` (a NaN) makes it false. For the
alternatives of `pelem`, `<=>` is `less` exactly when `<` holds and
`equivalent` exactly when `==` holds. -/
def ptuple_lt : ptuple → ptuple → Bool
  | [], [] => false
  | [], _ :: _ => true
  | _ :: _, [] => false
  | a :: as, b :: bs =>
    if a.lt b then true
    else if a.eq b then ptuple_lt as bs
    else false

/-! ## Caller memory -/

/-- The objects the pointers of a pattern point to, one address space per type. -/
structure Mem where
  ints : Nat → Int
  dbls : Nat → Double
  strs : Nat → String

/-- The assignment `*p = v` for `int* p`. -/
def Mem.setInt (m : Mem) (p : Nat) (v : Int) : Mem :=
  { m with ints := fun a => if a = p then v else m.ints a }

/-- The assignment `*p = v` for `double* p`. -/
def Mem.setDbl (m : Mem) (p : Nat) (v : Double) : Mem :=
  { m with dbls := fun a => if a = p then v else m.dbls a }

/-- The assignment `*p = v` for `std::string* p`. -/
def Mem.setStr (m : Mem) (p : Nat) (v : String) : Mem :=
  { m with strs := fun a => if a = p then v else m.strs a }

/-- A memory with every object zero or empty. -/
def Mem.zero : Mem := ⟨fun _ => 0, fun _ => Double.posZero, fun _ => ""⟩

/-! ## `try_copytake` -/

/-- The lambda `match` of `try_copytake` (lines 51-61). -/
def matchLambda (lhs rhs : pelem) : Bool :=
  if lhs.index / 2 != rhs.index / 2 then false
  -- if it's a pointer, accept any value
  else if lhs.index % 2 == 1 then true
  -- if it's a literal value, check that it's the right one
  else lhs.eq rhs

/-- The first inner loop (lines 50-65), run on `goal` and `current` of one size:
`false` is the `goto nexttuple`, `true` is falling out of the loop. -/
def matchLoop : ptuple → ptuple → Bool
  | g :: gs, c :: cs => if !matchLambda g c then false else matchLoop gs cs
  | _, _ => true

/-- The test the outer loop makes on `current` before the binding loop: the size
check of lines 46-48, then the first inner loop. -/
def accepts (goal current : ptuple) : Bool :=
  if goal.length ≠ current.length then false else matchLoop goal current

/-- The outer loop (lines 43-84) up to the point where it leaves the scan: the
position of the iterator `it` at the comment "yay we found one!", or `none`
when `it` reaches `end`. -/
def scan (goal : ptuple) : List ptuple → Option Nat
  | [] => none
  | current :: rest =>
    if accepts goal current then some 0 else (scan goal rest).map (· + 1)

/-- One `std::visit` of the binding loop (lines 71-75): a pointer in the goal
receives `std::get<t>(current[i])`, which throws `std::bad_variant_access`
(`none`) unless `current[i]` holds a `t`; any other goal element does nothing. -/
def bindVisit (g c : pelem) (m : Mem) : Option Mem :=
  match g, c with
  | .intp p, .int v => some (m.setInt p v)
  | .intp _, _ => none
  | .dblp p, .dbl v => some (m.setDbl p v)
  | .dblp _, _ => none
  | .strp p, .str v => some (m.setStr p v)
  | .strp _, _ => none
  | _, _ => some m

/-- The binding loop (lines 68-76): the memory when the loop is left, and
whether it was left normally (`true`) or by the exception (`false`). -/
def bindLoop : ptuple → ptuple → Mem → Mem × Bool
  | g :: gs, c :: cs, m =>
    match bindVisit g c m with
    | none => (m, false)
    | some m1 => bindLoop gs cs m1
  | _, _, m => (m, true)

/-- What a call leaves behind: `result` is the returned `bool`, or `none` when
the call was left by `std::bad_variant_access`; `tuples` and `mem` are the
store and the caller memory afterwards. -/
structure Ret where
  result : Option Bool
  tuples : List ptuple
  mem : Mem

/-- The method `bool try_copytake(bool remove, targs... args)` with
`goal = {args...}`: scan, then binding loop, then `tuples.erase(it)` if `remove`. -/
def try_copytake (remove : Bool) (goal : ptuple) (tuples : List ptuple) (mem : Mem) : Ret :=
  match scan goal tuples with
  | none => ⟨some false, tuples, mem⟩
  | some it =>
    match bindLoop goal (tuples.getD it []) mem with
    | (m, false) => ⟨none, tuples, m⟩
    | (m, true) => ⟨some true, if remove then tuples.eraseIdx it else tuples, m⟩

/-- The method `bool try_take(targs... args)`. -/
def try_take (goal : ptuple) (tuples : List ptuple) (mem : Mem) : Ret :=
  try_copytake true goal tuples mem

/-- The method `bool try_copy(targs... args)`. -/
def try_copy (goal : ptuple) (tuples : List ptuple) (mem : Mem) : Ret :=
  try_copytake false goal tuples mem

/-! ## `put` -/

/-- The member `std::multiset::insert`: the new element goes to the upper bound
of its equivalence class, i.e. before the first element it is less than. This
is what C++ guarantees when the stored elements are in order and `operator<`
is a strict weak ordering on them and the new one (`InsertSpecified` below),
which is so whenever no NaN is involved. Outside of that the standard leaves
the place open and a real tree may choose another one; the list insertion there
is a convention, and nothing below depends on it except up to permutation. -/
def multiset_insert (v : ptuple) : List ptuple → List ptuple
  | [] => [v]
  | x :: xs => if ptuple_lt v x then v :: x :: xs else x :: multiset_insert v xs

/-- The method `void put(targs... args)`: `tuples.insert(ptuple{args...})`. -/
def put (args : ptuple) (tuples : List ptuple) : List ptuple :=
  multiset_insert args tuples

/-! ## `copytake` -/

/-- The `std::visit` of `copytake` (lines 99-103): a pointer is read through,
a value is taken as it is. -/
def retVisit (m : Mem) : pelem → elem
  | .int v => .int v
  | .intp p => .int (m.ints p)
  | .dbl v => .dbl v
  | .dblp p => .dbl (m.dbls p)
  | .str v => .str v
  | .strp p => .str (m.strs p)

/-- How the first turn of the `while (1)` of `copytake` ends: it returns `ret`,
or it reaches `cv->wait` (and, no other thread being there to `put`, stays
there), or `try_copytake` throws. -/
inductive Outcome where
  | returned (ret : tuple) (tuples : List ptuple) (mem : Mem)
  | waiting (tuples : List ptuple) (mem : Mem)
  | thrown (tuples : List ptuple) (mem : Mem)

/-- The method `tuple copytake(bool remove, targs... args)`, first turn of its
loop. -/
def copytake (remove : Bool) (args : ptuple) (tuples : List ptuple) (mem : Mem) : Outcome :=
  match try_copytake remove args tuples mem with
  | ⟨some true, ts, m⟩ => .returned (args.map (retVisit m)) ts m
  | ⟨some false, ts, m⟩ => .waiting ts m
  | ⟨none, ts, m⟩ => .thrown ts m

/-- The method `tuple take(targs... args)`. -/
def take (args : ptuple) (tuples : List ptuple) (mem : Mem) : Outcome :=
  copytake true args tuples mem

/-- The method `tuple copy(targs... args)`. -/
def copy (args : ptuple) (tuples : List ptuple) (mem : Mem) : Outcome :=
  copytake false args tuples mem

/-! ## The vocabulary of the specification (spec.md §3, §4.2)

These definitions follow the words of the specification, not the code. -/

namespace Spec

/-- The closed set of primitive kinds of a Value. -/
inductive Kind where
  | integer
  | floating
  | text
deriving DecidableEq

/-- The kind that is active in a Value. -/
def kindOf : elem → Kind
  | .int _ => .integer
  | .dbl _ => .floating
  | .str _ => .text

/-- A pattern element: a literal Value, or a wildcard with its declared kind. -/
inductive PatElem where
  | literal (v : elem)
  | wildcard (k : Kind)
deriving DecidableEq

/-- Positional compatibility of §4.2: the pattern element is a wildcard whose
declared kind equals the stored value's kind, or it is a literal equal in kind
and (by the equality of that kind) in value to the stored value. -/
def compatible : PatElem → elem → Bool
  | .wildcard k, v => decide (k = kindOf v)
  | .literal l, v => decide (kindOf l = kindOf v) && l.eq v

end Spec

/-- Whether a `pelem` holds one of the three pointer alternatives. -/
def pelem.isPointer : pelem → Bool
  | .intp _ => true
  | .dblp _ => true
  | .strp _ => true
  | _ => false

/-- The Value held by a `pelem` that is not a pointer. -/
def pelem.value? : pelem → Option elem
  | .int v => some (.int v)
  | .dbl v => some (.dbl v)
  | .str v => some (.str v)
  | _ => none

/-- A `pelem` of a goal read as a pattern element of the specification. -/
def pelem.pat : pelem → Spec.PatElem
  | .int v => .literal (.int v)
  | .intp _ => .wildcard .integer
  | .dbl v => .literal (.dbl v)
  | .dblp _ => .wildcard .floating
  | .str v => .literal (.str v)
  | .strp _ => .wildcard .text

/-- The kind of a `pelem`, of the value it holds or points to. -/
def pelem.kind (e : pelem) : Spec.Kind :=
  match e.pat with
  | .literal v => Spec.kindOf v
  | .wildcard k => k

/-- Positional compatibility of a goal element with a stored element: the
stored element is a Value and the pattern element is compatible with it. -/
def Spec.compatibleStored (g c : pelem) : Bool :=
  match c.value? with
  | some v => Spec.compatible g.pat v
  | none => false

/-- A stored tuple satisfies a pattern (§4.2, conditions 1 and 2): same arity,
and positional compatibility at every position. -/
def Spec.satisfies (P T : ptuple) : Bool :=
  decide (P.length = T.length) && (List.zip P T).all fun gc => Spec.compatibleStored gc.1 gc.2

/-- Every element of the tuple is a Value (no pointer). -/
def literalTuple (t : ptuple) : Bool := t.all fun c => !c.isPointer

/-- The store of the specification's data model: tuples of Values only. -/
def LiteralStore (tuples : List ptuple) : Prop := ∀ t ∈ tuples, literalTuple t = true

/-- The Value held by the object a pointer of a goal points to. -/
def Mem.deref (m : Mem) : pelem → Option elem
  | .intp p => some (.int (m.ints p))
  | .dblp p => some (.dbl (m.dbls p))
  | .strp p => some (.str (m.strs p))
  | _ => none

/-- A `pelem` holding a floating-point NaN. -/
def pelem.isNaN : pelem → Bool
  | .dbl d => d.isNaN
  | _ => false

/-- The results of `n` successive calls `try_copy(args...)`, each run on the
store and the memory the call before it left. -/
def try_copy_repeat (goal : ptuple) : Nat → List ptuple → Mem → List Ret
  | 0, _, _ => []
  | n + 1, tuples, mem =>
    try_copy goal tuples mem ::
      try_copy_repeat goal n (try_copy goal tuples mem).tuples (try_copy goal tuples mem).mem

/-- The returned tuple of an outcome of `copytake`, if it returned. -/
def Outcome.ret? : Outcome → Option tuple
  | .returned ret _ _ => some ret
  | _ => none

/-- The store an outcome of `copytake` leaves. -/
def Outcome.tuples : Outcome → List ptuple
  | .returned _ ts _ => ts
  | .waiting ts _ => ts
  | .thrown ts _ => ts

/-- The caller memory an outcome of `copytake` leaves. -/
def Outcome.mem : Outcome → Mem
  | .returned _ _ m => m
  | .waiting _ m => m
  | .thrown _ m => m

instance (tuples : List ptuple) : Decidable (LiteralStore tuples) := by
  unfold LiteralStore
  infer_instance

/-- Every wildcard of `P` holds, in memory `m`, exactly the value at its
position in `sel`. -/
def AllBound (P sel : ptuple) (m : Mem) : Prop :=
  ∀ (i : Nat) (g c : pelem), P[i]? = some g → sel[i]? = some c → g.isPointer = true →
    m.deref g = c.value?

/-- Every wildcard of `P` whose pointer is not passed again at a later position
of `P` holds, in memory `m`, exactly the value at its position in `sel`. -/
def LastBound (P sel : ptuple) (m : Mem) : Prop :=
  ∀ (i : Nat) (g c : pelem), P[i]? = some g → sel[i]? = some c → g.isPointer = true →
    (∀ j : Nat, i < j → P[j]? ≠ some g) → m.deref g = c.value?

/-- No pointer is passed at two positions of `P`. -/
def DistinctPointers (P : ptuple) : Prop := (P.filter pelem.isPointer).Nodup

instance (P : ptuple) : Decidable (DistinctPointers P) := by
  unfold DistinctPointers
  infer_instance

/-- The tuple `ret` is, position by position, what the specification says
`copy`/`take` return for pattern `P`, selected tuple `sel` and memory `m` after
the call: same arity as `P`; at a wildcard position the value bound there,
which is the stored value; at a literal position that literal, which `==`
finds equal to the stored value. -/
def Returned (P sel : ptuple) (ret : tuple) (m : Mem) : Prop :=
  ret.length = P.length ∧
  ∀ (i : Nat) (g c : pelem), P[i]? = some g → sel[i]? = some c →
    ∃ r v, ret[i]? = some r ∧ c.value? = some v ∧
      (g.isPointer = true → m.deref g = some r ∧ r = v) ∧
      (g.isPointer = false → g.value? = some r ∧ r.eq v = true)

/-! ## The store of `src/test.cpp` -/

/-- The tuple `(3, 1.2, "meow", 4)`. -/
def tMeow4 : ptuple := [.int 3, .dbl Double.d1_2, .str "meow", .int 4]

/-- The tuple `(44, "meow")`. -/
def tMeow2 : ptuple := [.int 44, .str "meow"]

/-- The store after the three `put`s at the top of `main`. -/
def testStore : List ptuple := put tMeow2 (put tMeow4 (put tMeow4 []))

/-! ## `operator<<` -/

/-- The loop of `operator<<` (lines 148-151) on the characters written so far
`os` and the current `sep`; `fmt` is what `os << arg` writes for one element,
which is the stream's business and is taken as given. -/
def outLoop (fmt : elem → String) : tuple → String → String → String
  | [], os, _ => os
  | e :: es, os, sep => outLoop fmt es (os ++ sep ++ fmt e) ", "

/-- The function `std::ostream& operator<<(std::ostream& os, const tuple& t)`:
the characters it writes to a stream. -/
def operator_out (fmt : elem → String) (t : tuple) : String :=
  outLoop fmt t "\x7b" " " ++ " \x7d"

/-- What a stream in its default state writes for an element: an `int` in
decimal, a `std::string` as it is; the text of a `double` is left to `fmtDouble`. -/
def fmtDefault (fmtDouble : Double → String) : elem → String
  | .int v => toString v
  | .dbl d => fmtDouble d
  | .str s => s

/-- A floating-point zero of either sign. -/
def Double.isZero (d : Double) : Bool := d.expo.val == 0 && d.frac.val == 0

/-- A `pelem` holding a floating-point zero of either sign. -/
def pelem.isZero : pelem → Bool
  | .dbl d => d.isZero
  | _ => false

/-- The `operator==` of `std::vector<pelem>`: same size and `==` at every
position. -/
def ptuple_eq : ptuple → ptuple → Bool
  | [], [] => true
  | a :: as, b :: bs => a.eq b && ptuple_eq as bs
  | _, _ => false

/-- The tuple `*it` at which the scan of `try_copytake` stops, if it stops. -/
def selected (goal : ptuple) (tuples : List ptuple) : Option ptuple :=
  match scan goal tuples with
  | none => none
  | some it => tuples[it]?

/-- The algorithm `std::lexicographical_compare` over an element comparison
`lt`; `chars_lt` is its instance, and `ptuple_lt` agrees with it on tuples
without NaN. -/
def lexLt {α : Type} (lt : α → α → Bool) : List α → List α → Bool
  | [], [] => false
  | [], _ :: _ => true
  | _ :: _, [] => false
  | a :: as, b :: bs =>
    if lt a b then true
    else if lt b a then false
    else lexLt lt as bs

/-- A floating-point negative zero. -/
def Double.isNegZero (d : Double) : Bool := d.sign && d.isZero

/-- A `pelem` holding a floating-point negative zero. -/
def pelem.isNegZero : pelem → Bool
  | .dbl d => d.isNegZero
  | _ => false

/-- The store is in the order of the multiset: no element is less than one
before it. -/
def SortedStore (tuples : List ptuple) : Prop :=
  tuples.Pairwise fun a b => ptuple_lt b a = false

/-- No stored element is a floating-point NaN. -/
def NoNaNStore (tuples : List ptuple) : Prop :=
  ∀ t ∈ tuples, ∀ e ∈ t, pelem.isNaN e = false

/-- No stored element is a floating-point negative zero. -/
def NoNegZeroStore (tuples : List ptuple) : Prop :=
  ∀ t ∈ tuples, ∀ e ∈ t, pelem.isNegZero e = false

/-- The stores reachable from the empty store by `put` of tuples of Values
that are not NaN, and by the retrieval calls. -/
inductive Reachable : List ptuple → Prop where
  | empty : Reachable []
  | put (t : ptuple) (s : List ptuple) : literalTuple t = true →
      (∀ e ∈ t, pelem.isNaN e = false) → Reachable s → Reachable (put t s)
  | retrieve (remove : Bool) (P : ptuple) (s : List ptuple) (mem : Mem) :
      Reachable s → Reachable (try_copytake remove P s mem).tuples

/-- The datum 1.0 (0x3FF0000000000000). -/
def Double.d1_0 : Double := ⟨false, ⟨1023, by decide⟩, ⟨0, by decide⟩⟩

/-- The Values of a stored tuple, in order (pointers, which a tuple of Values
does not have, are skipped). -/
def values (t : ptuple) : tuple := t.filterMap pelem.value?

/-- The rank of a kind: integer, then floating-point, then text. -/
def Spec.kindRank : Spec.Kind → Nat
  | .integer => 0
  | .floating => 1
  | .text => 2

/-- The order on Values in the words of the claim: first by kind rank, then,
within a kind, by value. -/
def Spec.valueLt (a b : elem) : Bool :=
  if Spec.kindRank (Spec.kindOf a) < Spec.kindRank (Spec.kindOf b) then true
  else if Spec.kindRank (Spec.kindOf b) < Spec.kindRank (Spec.kindOf a) then false
  else
    match a, b with
    | .int x, .int y => decide (x < y)
    | .dbl x, .dbl y => x.lt y
    | .str x, .str y => chars_lt x.data y.data
    | _, _ => false

/-- The lexicographic order on tuples of Values in the words of the claim: the
first position where the elements differ in order decides, and a proper
initial segment precedes its extensions. -/
def Spec.tupleLt : tuple → tuple → Bool
  | [], [] => false
  | [], _ :: _ => true
  | _ :: _, [] => false
  | a :: as, b :: bs =>
    if Spec.valueLt a b then true
    else if Spec.valueLt b a then false
    else Spec.tupleLt as bs

/-- A retrieval call that does not block. -/
inductive Call where
  | try_copy (P : ptuple)
  | try_take (P : ptuple)

/-- The results of a sequence of `try_copy` / `try_take` calls, each run on the
store and the memory the call before it left. -/
def run : List Call → List ptuple → Mem → List Ret
  | [], _, _ => []
  | .try_copy P :: cs, tuples, mem =>
    try_copy P tuples mem ::
      run cs (try_copy P tuples mem).tuples (try_copy P tuples mem).mem
  | .try_take P :: cs, tuples, mem =>
    try_take P tuples mem ::
      run cs (try_take P tuples mem).tuples (try_take P tuples mem).mem

/-- A sequence of `put` calls, first to last. -/
def putAll : List ptuple → List ptuple → List ptuple
  | [], tuples => tuples
  | t :: ts, tuples => putAll ts (put t tuples)

/-- Neither tuple is less than the other: the two are equivalent keys for the
multiset. -/
def incomparable (a b : ptuple) : Bool := !ptuple_lt a b && !ptuple_lt b a

/-- On the tuples of `l`, `operator<` is a strict weak ordering: irreflexive,
transitive, and with a transitive incomparability. -/
def strictWeakOn (l : List ptuple) : Bool :=
  l.all fun a => !ptuple_lt a a &&
    l.all fun b => l.all fun c =>
      (!(ptuple_lt a b && ptuple_lt b c) || ptuple_lt a c) &&
      (!(incomparable a b && incomparable b c) || incomparable a c)

instance (tuples : List ptuple) : Decidable (SortedStore tuples) := by
  unfold SortedStore
  infer_instance

/-- The condition under which C++ specifies where `multiset::insert` puts `v`:
the stored tuples are in order and `operator<` is a strict weak ordering on
them together with `v`. -/
def InsertSpecified (v : ptuple) (tuples : List ptuple) : Prop :=
  SortedStore tuples ∧ strictWeakOn (v :: tuples) = true

instance (v : ptuple) (tuples : List ptuple) : Decidable (InsertSpecified v tuples) := by
  unfold InsertSpecified
  infer_instance

/-! ## The two locks

The order in which `put` and `copytake` take and give back `mutex` and
`cv_mutex`, read off the scopes of their `std::unique_lock` objects, and the
threads that run them, interleaved one lock action at a time. -/

/-- The two mutexes of the class. -/
inductive Lock where
  | mutex
  | cv_mutex
deriving DecidableEq

/-- A lock action of a thread. -/
inductive Act where
  | acquire (l : Lock)
  | release (l : Lock)
deriving DecidableEq

/-- The lock actions of `tuplespace::put` (`src/tuplespace.hpp`, lines 116-120):
`cv_lock` is constructed first, `lock` second, and they are destroyed in the
opposite order at the closing brace. -/
def put_locks : List Act :=
  [.acquire .cv_mutex, .acquire .mutex, .release .mutex, .release .cv_mutex]

/-- The lock actions of `simpletuplespace::put` (`src/tuplespace.cpp`, lines
112-118): `lock` on `mutex` is constructed first and lives to the end of the
function, `cv_lock` on `cv_mutex` lives in the inner block. -/
def simple_put_locks : List Act :=
  [.acquire .mutex, .acquire .cv_mutex, .release .cv_mutex, .release .mutex]

/-- The lock actions of one turn of the loop of `copytake`, the same in both
classes: `cv_lock` is constructed, `try_copytake` takes and gives back `mutex`,
and `cv_mutex` is given back by the return or by `cv->wait`. -/
def copytake_locks : List Act :=
  [.acquire .cv_mutex, .acquire .mutex, .release .mutex, .release .cv_mutex]

/-- Who holds each lock, and the lock actions each thread has still to do. -/
structure LockState where
  mutex : Option Nat
  cv_mutex : Option Nat
  threads : List (List Act)
deriving DecidableEq

/-- The holder of a lock. -/
def LockState.holder (st : LockState) : Lock → Option Nat
  | .mutex => st.mutex
  | .cv_mutex => st.cv_mutex

/-- The state with a new holder of a lock. -/
def LockState.setHolder (st : LockState) (l : Lock) (h : Option Nat) : LockState :=
  match l with
  | .mutex => { st with mutex := h }
  | .cv_mutex => { st with cv_mutex := h }

/-- All locks free, every thread at the start of its actions. -/
def LockState.start (threads : List (List Act)) : LockState := ⟨none, none, threads⟩

/-- Thread `i` does its next lock action, if it has one and, for an acquire,
if the lock is free; `none` when the thread is done or has to wait. -/
def LockState.step (i : Nat) (st : LockState) : Option LockState :=
  match st.threads[i]? with
  | none => none
  | some [] => none
  | some (.acquire l :: rest) =>
    if st.holder l = none then
      some { st.setHolder l (some i) with threads := st.threads.set i rest }
    else none
  | some (.release l :: rest) =>
    some { st.setHolder l none with threads := st.threads.set i rest }

/-- The state after the scheduler has picked the threads of `schedule` in turn
(a pick of a thread that cannot move changes nothing). -/
def LockState.exec : List Nat → LockState → LockState
  | [], st => st
  | i :: schedule, st => LockState.exec schedule ((st.step i).getD st)

/-- Some thread has actions left and no thread can move. -/
def LockState.deadlocked (st : LockState) : Bool :=
  st.threads.any (fun t => !t.isEmpty) &&
    (List.range st.threads.length).all fun i => (st.step i).isNone

/-- The states found from `front` by letting either of two threads move,
`fuel` rounds deep. -/
def LockState.explore : Nat → List LockState → List LockState
  | 0, front => front
  | fuel + 1, front =>
    LockState.explore fuel
      (front ++ front.map (fun st => (st.step 0).getD st) ++
        front.map (fun st => (st.step 1).getD st)).dedup

/-! ## Lemmas on the matching loops -/

theorem matchLambda_eq_compatibleStored (g c : pelem) (hc : c.isPointer = false) :
    matchLambda g c = Spec.compatibleStored g c := by
  cases g <;> cases c <;>
    simp_all [matchLambda, Spec.compatibleStored, Spec.compatible, pelem.value?, pelem.pat,
      pelem.index, pelem.eq, elem.eq, Spec.kindOf, pelem.isPointer]

theorem matchLoop_eq_all (P T : ptuple) (hT : literalTuple T = true) (hlen : P.length = T.length) :
    matchLoop P T = (List.zip P T).all fun gc => Spec.compatibleStored gc.1 gc.2 := by
  induction P generalizing T with
  | nil => cases T <;> simp [matchLoop]
  | cons g gs ih =>
    cases T with
    | nil => simp at hlen
    | cons c cs =>
      simp only [literalTuple, List.all_cons, Bool.and_eq_true, Bool.not_eq_true'] at hT
      have hcs : literalTuple cs = true := hT.2
      have hl : gs.length = cs.length := by simpa using hlen
      simp only [matchLoop, List.zip_cons_cons, List.all_cons]
      rw [matchLambda_eq_compatibleStored g c hT.1, ih cs hcs hl]
      cases Spec.compatibleStored g c <;> simp

theorem accepts_eq_satisfies (P T : ptuple) (hT : literalTuple T = true) :
    accepts P T = Spec.satisfies P T := by
  unfold accepts Spec.satisfies
  by_cases hlen : P.length = T.length
  · simp [hlen, matchLoop_eq_all P T hT hlen]
  · simp [hlen]

/-! ## Lemmas on the scan -/

theorem scan_eq_none_iff (P : ptuple) (ts : List ptuple) :
    scan P ts = none ↔ ∀ t ∈ ts, accepts P t = false := by
  induction ts with
  | nil => simp [scan]
  | cons c rest ih =>
    by_cases hc : accepts P c = true
    · simp [scan, hc]
    · simp only [Bool.not_eq_true] at hc
      simp [scan, hc, ih]

theorem scan_eq_some (P : ptuple) (ts : List ptuple) (it : Nat) (h : scan P ts = some it) :
    ∃ sel, ts[it]? = some sel ∧ accepts P sel = true ∧
      ∀ j u, j < it → ts[j]? = some u → accepts P u = false := by
  induction ts generalizing it with
  | nil => simp [scan] at h
  | cons c rest ih =>
    by_cases hc : accepts P c = true
    · simp only [scan, hc, if_true, Option.some.injEq] at h
      subst h
      exact ⟨c, by simp, hc, fun j u hj => absurd hj (Nat.not_lt_zero j)⟩
    · simp only [Bool.not_eq_true] at hc
      simp only [scan, hc, Bool.false_eq_true, if_false, Option.map_eq_some'] at h
      obtain ⟨k, hk, rfl⟩ := h
      obtain ⟨sel, hsel, hacc, hbefore⟩ := ih k hk
      refine ⟨sel, by simpa using hsel, hacc, ?_⟩
      intro j u hj hu
      cases j with
      | zero =>
        simp only [List.getElem?_cons_zero, Option.some.injEq] at hu
        subst hu
        exact hc
      | succ j =>
        simp only [List.getElem?_cons_succ] at hu
        exact hbefore j u (by omega) hu

theorem mem_of_getElem?_eq_some {α : Type} (ts : List α) (it : Nat) (sel : α)
    (h : ts[it]? = some sel) : sel ∈ ts :=
  List.mem_iff_getElem?.2 ⟨it, h⟩

/-- Erasing at a valid position removes one instance of the element there. -/
theorem perm_cons_eraseIdx {α : Type} (ts : List α) (it : Nat) (sel : α)
    (h : ts[it]? = some sel) : List.Perm ts (sel :: ts.eraseIdx it) := by
  induction ts generalizing it with
  | nil => simp at h
  | cons c rest ih =>
    cases it with
    | zero =>
      simp only [List.getElem?_cons_zero, Option.some.injEq] at h
      subst h
      simp
    | succ k =>
      simp only [List.getElem?_cons_succ] at h
      simp only [List.eraseIdx_cons_succ]
      exact ((ih k h).cons c).trans (List.Perm.swap sel c _)

/-! ## Lemmas on the binding loop -/

theorem bindVisit_isSome (g c : pelem) (m : Mem) (hc : c.isPointer = false)
    (hm : matchLambda g c = true) : ∃ m1, bindVisit g c m = some m1 := by
  cases g <;> cases c <;>
    simp_all [matchLambda, bindVisit, pelem.index, pelem.isPointer, pelem.eq]

theorem bindLoop_snd_of_matchLoop (gs cs : ptuple) (m : Mem) (hcs : literalTuple cs = true)
    (hm : matchLoop gs cs = true) : (bindLoop gs cs m).2 = true := by
  induction gs generalizing cs m with
  | nil => cases cs <;> simp [bindLoop]
  | cons g gs ih =>
    cases cs with
    | nil => simp [bindLoop]
    | cons c cs =>
      simp only [literalTuple, List.all_cons, Bool.and_eq_true, Bool.not_eq_true'] at hcs
      have hmg : matchLambda g c = true := by
        cases hx : matchLambda g c
        · simp [matchLoop, hx] at hm
        · rfl
      have hrest : matchLoop gs cs = true := by simpa [matchLoop, hmg] using hm
      obtain ⟨m1, hm1⟩ := bindVisit_isSome g c m hcs.1 hmg
      simp only [bindLoop, hm1]
      exact ih cs m1 hcs.2 hrest

/-! ## The three ways `try_copytake` ends -/

theorem try_copytake_cases (remove : Bool) (P : ptuple) (ts : List ptuple) (mem : Mem) :
    (scan P ts = none ∧ try_copytake remove P ts mem = ⟨some false, ts, mem⟩) ∨
    (∃ it sel, scan P ts = some it ∧ ts[it]? = some sel ∧ sel ∈ ts ∧ accepts P sel = true ∧
      (∀ j u, j < it → ts[j]? = some u → accepts P u = false) ∧
      (((bindLoop P sel mem).2 = true ∧ try_copytake remove P ts mem =
          ⟨some true, if remove then ts.eraseIdx it else ts, (bindLoop P sel mem).1⟩) ∨
       ((bindLoop P sel mem).2 = false ∧ try_copytake remove P ts mem =
          ⟨none, ts, (bindLoop P sel mem).1⟩))) := by
  cases hs : scan P ts with
  | none => left; simp [try_copytake, hs]
  | some it =>
    right
    obtain ⟨sel, hsel, hacc, hbefore⟩ := scan_eq_some P ts it hs
    refine ⟨it, sel, rfl, hsel, mem_of_getElem?_eq_some ts it sel hsel, hacc, hbefore, ?_⟩
    cases hb : bindLoop P sel mem with
    | mk m b =>
      cases b with
      | true => left; simp [try_copytake, hs, hsel, hb]
      | false => right; simp [try_copytake, hs, hsel, hb]

theorem try_copytake_result_true_iff (remove : Bool) (P : ptuple) (ts : List ptuple) (mem : Mem)
    (hstore : LiteralStore ts) :
    (try_copytake remove P ts mem).result = some true ↔ ∃ t ∈ ts, Spec.satisfies P t = true := by
  constructor
  · intro h
    rcases try_copytake_cases remove P ts mem with ⟨_, he⟩ | ⟨it, sel, _, _, hmem, hacc, _, hc⟩
    · rw [he] at h; simp at h
    · exact ⟨sel, hmem, by rw [← accepts_eq_satisfies P sel (hstore sel hmem)]; exact hacc⟩
  · rintro ⟨t, ht, hsat⟩
    rw [← accepts_eq_satisfies P t (hstore t ht)] at hsat
    rcases try_copytake_cases remove P ts mem with ⟨hn, _⟩ | ⟨it, sel, _, _, hmem, hacc, _, hc⟩
    · have := (scan_eq_none_iff P ts).1 hn t ht
      simp [hsat] at this
    · have hm : matchLoop P sel = true := by
        unfold accepts at hacc
        split at hacc
        · simp at hacc
        · exact hacc
      have hb := bindLoop_snd_of_matchLoop P sel mem (hstore sel hmem) hm
      rcases hc with ⟨_, he⟩ | ⟨hf, _⟩
      · rw [he]
      · rw [hb] at hf; simp at hf

theorem try_copytake_result_false_iff (remove : Bool) (P : ptuple) (ts : List ptuple) (mem : Mem)
    (hstore : LiteralStore ts) :
    (try_copytake remove P ts mem).result = some false ↔
      ¬ ∃ t ∈ ts, Spec.satisfies P t = true := by
  rw [← try_copytake_result_true_iff remove P ts mem hstore]
  constructor
  · intro h; rw [h]; simp
  · intro h
    rcases try_copytake_cases remove P ts mem with ⟨_, he⟩ | ⟨it, sel, _, _, hmem, hacc, _, hc⟩
    · rw [he]
    · have hm : matchLoop P sel = true := by
        unfold accepts at hacc
        split at hacc
        · simp at hacc
        · exact hacc
      have hb := bindLoop_snd_of_matchLoop P sel mem (hstore sel hmem) hm
      rcases hc with ⟨_, he⟩ | ⟨hf, _⟩
      · rw [he] at h; simp at h
      · rw [hb] at hf; simp at hf

/-! ## What the binding loop writes -/

theorem matchLoop_of_accepts (P sel : ptuple) (h : accepts P sel = true) :
    P.length = sel.length ∧ matchLoop P sel = true := by
  unfold accepts at h
  split at h
  · simp at h
  · rename_i hlen
    exact ⟨by simpa using hlen, h⟩

theorem bindVisit_frame (g0 c g : pelem) (m m1 : Mem) (h : bindVisit g0 c m = some m1)
    (hne : g0 ≠ g) : m1.deref g = m.deref g := by
  cases g0 <;> cases c <;> simp only [bindVisit, Option.some.injEq, reduceCtorEq] at h <;>
    subst h <;> cases g <;>
    simp_all [Mem.deref, Mem.setInt, Mem.setDbl, Mem.setStr] <;>
    (intro hp; exact absurd hp.symm hne)

theorem bindVisit_deref (g c : pelem) (m m1 : Mem) (h : bindVisit g c m = some m1)
    (hg : g.isPointer = true) : m1.deref g = c.value? := by
  cases g <;> cases c <;> simp only [bindVisit, Option.some.injEq, reduceCtorEq] at h <;>
    simp_all [Mem.deref, Mem.setInt, Mem.setDbl, Mem.setStr, pelem.value?, pelem.isPointer] <;>
    subst h <;> simp

theorem bindVisit_literal (g c : pelem) (m m1 : Mem) (h : bindVisit g c m = some m1)
    (hm : matchLambda g c = true) : c.isPointer = false := by
  cases g <;> cases c <;>
    simp_all [bindVisit, matchLambda, pelem.index, pelem.eq, pelem.isPointer]

theorem bindLoop_frame (gs cs : ptuple) (m : Mem) (g : pelem) (hne : ∀ j : Nat, gs[j]? ≠ some g) :
    (bindLoop gs cs m).1.deref g = m.deref g := by
  induction gs generalizing cs m with
  | nil => cases cs <;> simp [bindLoop]
  | cons g0 gs ih =>
    cases cs with
    | nil => simp [bindLoop]
    | cons c cs =>
      have h0 : g0 ≠ g := fun e => hne 0 (by simp [e])
      have hrest : ∀ j : Nat, gs[j]? ≠ some g := fun j => by simpa using hne (j + 1)
      cases hv : bindVisit g0 c m with
      | none => simp [bindLoop, hv]
      | some m1 =>
        simp only [bindLoop, hv]
        rw [ih cs m1 hrest]
        exact bindVisit_frame g0 c g m m1 hv h0

theorem bindLoop_deref (gs cs : ptuple) (m : Mem) (hok : (bindLoop gs cs m).2 = true)
    (i : Nat) (g c : pelem) (hg : gs[i]? = some g) (hc : cs[i]? = some c)
    (hp : g.isPointer = true) (hlast : ∀ j : Nat, i < j → gs[j]? ≠ some g) :
    (bindLoop gs cs m).1.deref g = c.value? := by
  induction gs generalizing cs m i with
  | nil => simp at hg
  | cons g0 gs ih =>
    cases cs with
    | nil => simp at hc
    | cons c0 cs =>
      cases hv : bindVisit g0 c0 m with
      | none => simp [bindLoop, hv] at hok
      | some m1 =>
        simp only [bindLoop, hv] at hok ⊢
        cases i with
        | zero =>
          simp only [List.getElem?_cons_zero, Option.some.injEq] at hg hc
          subst hg; subst hc
          have hrest : ∀ j : Nat, gs[j]? ≠ some g0 := fun j => by
            simpa using hlast (j + 1) (Nat.succ_pos j)
          rw [bindLoop_frame gs cs m1 g0 hrest]
          exact bindVisit_deref g0 c0 m m1 hv hp
        | succ k =>
          simp only [List.getElem?_cons_succ] at hg hc
          have hrest : ∀ j : Nat, k < j → gs[j]? ≠ some g := fun j hj => by
            simpa using hlast (j + 1) (Nat.succ_lt_succ hj)
          exact ih cs m1 hok k hg hc hrest

theorem literalTuple_of_bindLoop (gs cs : ptuple) (m : Mem) (hlen : gs.length = cs.length)
    (hm : matchLoop gs cs = true) (hok : (bindLoop gs cs m).2 = true) :
    literalTuple cs = true := by
  induction gs generalizing cs m with
  | nil =>
    cases cs with
    | nil => rfl
    | cons c cs => simp at hlen
  | cons g gs ih =>
    cases cs with
    | nil => simp at hlen
    | cons c cs =>
      have hmg : matchLambda g c = true := by
        cases hx : matchLambda g c
        · simp [matchLoop, hx] at hm
        · rfl
      have hrest : matchLoop gs cs = true := by simpa [matchLoop, hmg] using hm
      cases hv : bindVisit g c m with
      | none => simp [bindLoop, hv] at hok
      | some m1 =>
        simp only [bindLoop, hv] at hok
        have hl : gs.length = cs.length := by simpa using hlen
        simp only [literalTuple, List.all_cons, Bool.and_eq_true, Bool.not_eq_true']
        exact ⟨bindVisit_literal g c m m1 hv hmg, ih cs m1 hl hrest hok⟩

/-! ## C1 -/

/-- C1: on a store of tuples of Values, `try_copy(P)` and `try_take(P)` return
true exactly when some stored tuple satisfies `P` (same arity and, at every
position, a wildcard of the stored value's kind or a literal equal to it in
kind and value), and return false exactly when no stored tuple does. -/
theorem C1_try_copy_try_take_iff_satisfied (P : ptuple) (tuples : List ptuple) (mem : Mem)
    (hstore : LiteralStore tuples) :
    ((try_copy P tuples mem).result = some true ↔ ∃ t ∈ tuples, Spec.satisfies P t = true) ∧
    ((try_take P tuples mem).result = some true ↔ ∃ t ∈ tuples, Spec.satisfies P t = true) ∧
    ((try_copy P tuples mem).result = some false ↔ ¬ ∃ t ∈ tuples, Spec.satisfies P t = true) ∧
    ((try_take P tuples mem).result = some false ↔ ¬ ∃ t ∈ tuples, Spec.satisfies P t = true) :=
  ⟨try_copytake_result_true_iff false P tuples mem hstore,
   try_copytake_result_true_iff true P tuples mem hstore,
   try_copytake_result_false_iff false P tuples mem hstore,
   try_copytake_result_false_iff true P tuples mem hstore⟩

/-- Witness of C1 on the store of `src/test.cpp` and the goal `(3, 1.2, "meow", 4)`. -/
theorem C1_witness :
    LiteralStore testStore ∧
    ((try_copy tMeow4 testStore Mem.zero).result = some true ↔
      ∃ t ∈ testStore, Spec.satisfies tMeow4 t = true) :=
  ⟨by decide, (C1_try_copy_try_take_iff_satisfied tMeow4 testStore Mem.zero (by decide)).1⟩

/-! ## C2 -/

theorem try_copytake_true_selected (remove : Bool) (P : ptuple) (ts : List ptuple) (mem : Mem)
    (h : (try_copytake remove P ts mem).result = some true) :
    ∃ it sel, scan P ts = some it ∧ ts[it]? = some sel ∧ sel ∈ ts ∧ accepts P sel = true ∧
      (bindLoop P sel mem).2 = true ∧
      try_copytake remove P ts mem =
        ⟨some true, if remove then ts.eraseIdx it else ts, (bindLoop P sel mem).1⟩ := by
  rcases try_copytake_cases remove P ts mem with ⟨_, he⟩ | ⟨it, sel, hs, hsel, hmem, hacc, _, hc⟩
  · rw [he] at h; simp at h
  · rcases hc with ⟨hb, he⟩ | ⟨_, he⟩
    · exact ⟨it, sel, hs, hsel, hmem, hacc, hb, he⟩
    · rw [he] at h; simp at h

theorem try_copytake_true_bound (remove : Bool) (P : ptuple) (ts : List ptuple) (mem : Mem)
    (h : (try_copytake remove P ts mem).result = some true) :
    ∃ sel ∈ ts, Spec.satisfies P sel = true ∧
      (∃ it, scan P ts = some it ∧ ts[it]? = some sel) ∧
      LastBound P sel (try_copytake remove P ts mem).mem := by
  obtain ⟨it, sel, hs, hsel, hmem, hacc, hb, he⟩ := try_copytake_true_selected remove P ts mem h
  obtain ⟨hlen, hm⟩ := matchLoop_of_accepts P sel hacc
  have hlit := literalTuple_of_bindLoop P sel mem hlen hm hb
  refine ⟨sel, hmem, ?_, ⟨it, hs, hsel⟩, ?_⟩
  · rw [← accepts_eq_satisfies P sel hlit]; exact hacc
  · rw [he]
    intro i g c hg hc hp hlast
    exact bindLoop_deref P sel mem hb i g c hg hc hp hlast

/-- C2 as stated fails: with the same pointer passed at both positions, after
`try_copy(&p, &p)` on the store holding `(1, 2)` the call has returned true and
the wildcard at position 0 holds 2, not the 1 at position 0 of the only tuple. -/
theorem C2_counterexample :
    (try_copy [.intp 0, .intp 0] [[.int 1, .int 2]] Mem.zero).result = some true ∧
    ¬ ∃ sel ∈ [[pelem.int 1, pelem.int 2]],
        AllBound [.intp 0, .intp 0] sel
          (try_copy [.intp 0, .intp 0] [[.int 1, .int 2]] Mem.zero).mem := by
  refine ⟨by decide, ?_⟩
  rintro ⟨sel, hsel, hall⟩
  simp only [List.mem_singleton] at hsel
  subst hsel
  have h0 := hall 0 (.intp 0) (.int 1) rfl rfl rfl
  revert h0
  decide

/-- C2 (amended): when `try_copy(P)` or `try_take(P)` returns true there is one
selected tuple that was in the store before the call and satisfies `P`, and
after the call every wildcard at a position `i` of `P` whose pointer is not
passed again at a later position of `P` holds exactly the value at position
`i` of that selected tuple. -/
theorem C2_last_wildcards_hold_selected_values (P : ptuple) (tuples : List ptuple) (mem : Mem) :
    ((try_copy P tuples mem).result = some true →
      ∃ sel ∈ tuples, Spec.satisfies P sel = true ∧
        (∃ it, scan P tuples = some it ∧ tuples[it]? = some sel) ∧
        LastBound P sel (try_copy P tuples mem).mem) ∧
    ((try_take P tuples mem).result = some true →
      ∃ sel ∈ tuples, Spec.satisfies P sel = true ∧
        (∃ it, scan P tuples = some it ∧ tuples[it]? = some sel) ∧
        LastBound P sel (try_take P tuples mem).mem) :=
  ⟨try_copytake_true_bound false P tuples mem, try_copytake_true_bound true P tuples mem⟩

/-- Witness of C2 (amended): `try_copy(&p, 1.2, "meow", 4)` of `src/test.cpp`. -/
theorem C2_witness :
    (try_copy [.intp 0, .dbl Double.d1_2, .str "meow", .int 4] testStore Mem.zero).result =
        some true ∧
    ∃ sel ∈ testStore,
      Spec.satisfies [.intp 0, .dbl Double.d1_2, .str "meow", .int 4] sel = true ∧
      (∃ it, scan [.intp 0, .dbl Double.d1_2, .str "meow", .int 4] testStore = some it ∧
        testStore[it]? = some sel) ∧
      LastBound [.intp 0, .dbl Double.d1_2, .str "meow", .int 4] sel
        (try_copy [.intp 0, .dbl Double.d1_2, .str "meow", .int 4] testStore Mem.zero).mem :=
  ⟨by decide,
   (C2_last_wildcards_hold_selected_values [.intp 0, .dbl Double.d1_2, .str "meow", .int 4]
      testStore Mem.zero).1 (by decide)⟩

/-! ## C3 -/

theorem try_copytake_false_unchanged (remove : Bool) (P : ptuple) (ts : List ptuple) (mem : Mem)
    (h : (try_copytake remove P ts mem).result = some false) :
    (try_copytake remove P ts mem).tuples = ts ∧ (try_copytake remove P ts mem).mem = mem := by
  rcases try_copytake_cases remove P ts mem with ⟨_, he⟩ | ⟨it, sel, _, _, _, _, _, hc⟩
  · rw [he]; exact ⟨rfl, rfl⟩
  · rcases hc with ⟨_, he⟩ | ⟨_, he⟩ <;> (rw [he] at h; simp at h)

/-- C3: if `try_copy(P)` or `try_take(P)` returns false, the store after the
call is the store before it and the caller memory is the memory before it: no
wildcard of `P` has been written, whatever part of `P` stored tuples match. -/
theorem C3_false_leaves_store_and_bindings (P : ptuple) (tuples : List ptuple) (mem : Mem) :
    ((try_copy P tuples mem).result = some false →
      (try_copy P tuples mem).tuples = tuples ∧ (try_copy P tuples mem).mem = mem) ∧
    ((try_take P tuples mem).result = some false →
      (try_take P tuples mem).tuples = tuples ∧ (try_take P tuples mem).mem = mem) :=
  ⟨try_copytake_false_unchanged false P tuples mem, try_copytake_false_unchanged true P tuples mem⟩

/-- Witness of C3: `try_copy(&p, 1.2, "thiswillfail", 4)` on the store of
`src/test.cpp`, where both copies of `(3, 1.2, "meow", 4)` match the first two
positions. -/
theorem C3_witness :
    (try_copy [.intp 0, .dbl Double.d1_2, .str "thiswillfail", .int 4] testStore Mem.zero).result =
        some false ∧
    (try_copy [.intp 0, .dbl Double.d1_2, .str "thiswillfail", .int 4] testStore Mem.zero).tuples =
        testStore ∧
    (try_copy [.intp 0, .dbl Double.d1_2, .str "thiswillfail", .int 4] testStore Mem.zero).mem =
        Mem.zero :=
  ⟨by decide,
   (C3_false_leaves_store_and_bindings [.intp 0, .dbl Double.d1_2, .str "thiswillfail", .int 4]
      testStore Mem.zero).1 (by decide)⟩

/-! ## C4 -/

theorem try_copytake_true_of_satisfied (remove : Bool) (P : ptuple) (ts : List ptuple) (mem : Mem)
    (hstore : LiteralStore ts) (hex : ∃ t ∈ ts, Spec.satisfies P t = true) :
    ∃ it sel, scan P ts = some it ∧ ts[it]? = some sel ∧ sel ∈ ts ∧
      Spec.satisfies P sel = true ∧ (bindLoop P sel mem).2 = true ∧
      try_copytake remove P ts mem =
        ⟨some true, if remove then ts.eraseIdx it else ts, (bindLoop P sel mem).1⟩ := by
  have h := (try_copytake_result_true_iff remove P ts mem hstore).2 hex
  obtain ⟨it, sel, hs, hsel, hmem, hacc, hb, he⟩ := try_copytake_true_selected remove P ts mem h
  refine ⟨it, sel, hs, hsel, hmem, ?_, hb, he⟩
  rw [← accepts_eq_satisfies P sel (hstore sel hmem)]; exact hacc

theorem count_eraseIdx_self (ts : List ptuple) (it : Nat) (sel : ptuple)
    (h : ts[it]? = some sel) : (ts.eraseIdx it).count sel + 1 = ts.count sel := by
  have hp := (perm_cons_eraseIdx ts it sel h).countP_eq (· == sel)
  simp only [List.count, hp, List.countP_cons, beq_self_eq_true, if_true]

theorem count_eraseIdx_other (ts : List ptuple) (it : Nat) (sel u : ptuple)
    (h : ts[it]? = some sel) (hu : u ≠ sel) : (ts.eraseIdx it).count u = ts.count u := by
  have hp := (perm_cons_eraseIdx ts it sel h).countP_eq (· == u)
  have hne : (sel == u) = false := by simpa using hu.symm
  simp only [List.count, hp, List.countP_cons, hne, Bool.false_eq_true, if_false, Nat.add_zero]

theorem length_eraseIdx_succ (ts : List ptuple) (it : Nat) (sel : ptuple)
    (h : ts[it]? = some sel) : (ts.eraseIdx it).length + 1 = ts.length := by
  rw [(perm_cons_eraseIdx ts it sel h).length_eq]
  simp

/-- C4: on a store of tuples of Values holding a tuple that satisfies `P`,
`try_take(P)` returns true and leaves the store with exactly one instance of
the selected tuple removed: the selected tuple is the one at the position the
scan stopped at, the store is the old one with that position erased, its size
is one less, the multiplicity of the selected tuple is one less, and the
multiplicity of every other tuple is unchanged. -/
theorem C4_try_take_removes_one_instance (P : ptuple) (tuples : List ptuple) (mem : Mem)
    (hstore : LiteralStore tuples) (hex : ∃ t ∈ tuples, Spec.satisfies P t = true) :
    (try_take P tuples mem).result = some true ∧
    ∃ it sel, scan P tuples = some it ∧ tuples[it]? = some sel ∧
      Spec.satisfies P sel = true ∧
      (try_take P tuples mem).tuples = tuples.eraseIdx it ∧
      (try_take P tuples mem).tuples.length + 1 = tuples.length ∧
      (try_take P tuples mem).tuples.count sel + 1 = tuples.count sel ∧
      ∀ u, u ≠ sel → (try_take P tuples mem).tuples.count u = tuples.count u := by
  obtain ⟨it, sel, hs, hsel, _, hsat, _, he⟩ :=
    try_copytake_true_of_satisfied true P tuples mem hstore hex
  unfold try_take
  rw [he]
  refine ⟨rfl, it, sel, hs, hsel, hsat, by simp, ?_, ?_, ?_⟩
  · simpa using length_eraseIdx_succ tuples it sel hsel
  · simpa using count_eraseIdx_self tuples it sel hsel
  · intro u hu
    simpa using count_eraseIdx_other tuples it sel u hsel hu

/-- Witness of C4: `try_take(3, 1.2, "meow", 4)` on the store of `src/test.cpp`,
which holds two instances of that tuple. -/
theorem C4_witness :
    LiteralStore testStore ∧ (∃ t ∈ testStore, Spec.satisfies tMeow4 t = true) ∧
    (try_take tMeow4 testStore Mem.zero).result = some true ∧
    ∃ it sel, scan tMeow4 testStore = some it ∧ testStore[it]? = some sel ∧
      Spec.satisfies tMeow4 sel = true ∧
      (try_take tMeow4 testStore Mem.zero).tuples = testStore.eraseIdx it ∧
      (try_take tMeow4 testStore Mem.zero).tuples.length + 1 = testStore.length ∧
      (try_take tMeow4 testStore Mem.zero).tuples.count sel + 1 = testStore.count sel ∧
      ∀ u, u ≠ sel → (try_take tMeow4 testStore Mem.zero).tuples.count u = testStore.count u :=
  ⟨by decide, ⟨tMeow4, by decide, by decide⟩,
   C4_try_take_removes_one_instance tMeow4 testStore Mem.zero (by decide)
     ⟨tMeow4, by decide, by decide⟩⟩

/-! ## C5 -/

theorem Mem.eq_of_fields (a b : Mem) (h1 : a.ints = b.ints) (h2 : a.dbls = b.dbls)
    (h3 : a.strs = b.strs) : a = b := by
  cases a; cases b; simp_all

/-- What one visit of the binding loop does is fixed by the goal element and
the stored element alone: it throws, or does nothing, or stores one value. -/
theorem bindVisit_shape (g c : pelem) :
    (∀ m, bindVisit g c m = none) ∨ (∀ m, bindVisit g c m = some m) ∨
    (∃ p v, ∀ m, bindVisit g c m = some (m.setInt p v)) ∨
    (∃ p v, ∀ m, bindVisit g c m = some (m.setDbl p v)) ∨
    (∃ p v, ∀ m, bindVisit g c m = some (m.setStr p v)) := by
  cases g with
  | intp p =>
    cases c with
    | int v => exact Or.inr (Or.inr (Or.inl ⟨p, v, fun _ => rfl⟩))
    | _ => exact Or.inl fun _ => rfl
  | dblp p =>
    cases c with
    | dbl v => exact Or.inr (Or.inr (Or.inr (Or.inl ⟨p, v, fun _ => rfl⟩)))
    | _ => exact Or.inl fun _ => rfl
  | strp p =>
    cases c with
    | str v => exact Or.inr (Or.inr (Or.inr (Or.inr ⟨p, v, fun _ => rfl⟩)))
    | _ => exact Or.inl fun _ => rfl
  | _ => exact Or.inr (Or.inl fun _ => rfl)

/-- Two runs of the binding loop on the same goal and tuple from two memories:
each object ends equal in both, or is left as it was in both. -/
theorem bindLoop_agree (gs cs : ptuple) (m n : Mem) :
    (bindLoop gs cs m).2 = (bindLoop gs cs n).2 ∧
    (∀ a, (bindLoop gs cs m).1.ints a = (bindLoop gs cs n).1.ints a ∨
      ((bindLoop gs cs m).1.ints a = m.ints a ∧ (bindLoop gs cs n).1.ints a = n.ints a)) ∧
    (∀ a, (bindLoop gs cs m).1.dbls a = (bindLoop gs cs n).1.dbls a ∨
      ((bindLoop gs cs m).1.dbls a = m.dbls a ∧ (bindLoop gs cs n).1.dbls a = n.dbls a)) ∧
    (∀ a, (bindLoop gs cs m).1.strs a = (bindLoop gs cs n).1.strs a ∨
      ((bindLoop gs cs m).1.strs a = m.strs a ∧ (bindLoop gs cs n).1.strs a = n.strs a)) := by
  induction gs generalizing cs m n with
  | nil => cases cs <;> simp [bindLoop]
  | cons g gs ih =>
    cases cs with
    | nil => simp [bindLoop]
    | cons c cs =>
      rcases bindVisit_shape g c with h | h | ⟨p, v, h⟩ | ⟨p, v, h⟩ | ⟨p, v, h⟩
      · simp [bindLoop, h]
      · simp only [bindLoop, h]
        exact ih cs m n
      · simp only [bindLoop, h]
        obtain ⟨i1, i2, i3, i4⟩ := ih cs (m.setInt p v) (n.setInt p v)
        refine ⟨i1, ?_, i3, i4⟩
        intro a
        rcases i2 a with e | ⟨e1, e2⟩
        · exact Or.inl e
        · by_cases hap : a = p
          · left; rw [e1, e2]; simp [Mem.setInt, hap]
          · right; rw [e1, e2]; simp [Mem.setInt, hap]
      · simp only [bindLoop, h]
        obtain ⟨i1, i2, i3, i4⟩ := ih cs (m.setDbl p v) (n.setDbl p v)
        refine ⟨i1, i2, ?_, i4⟩
        intro a
        rcases i3 a with e | ⟨e1, e2⟩
        · exact Or.inl e
        · by_cases hap : a = p
          · left; rw [e1, e2]; simp [Mem.setDbl, hap]
          · right; rw [e1, e2]; simp [Mem.setDbl, hap]
      · simp only [bindLoop, h]
        obtain ⟨i1, i2, i3, i4⟩ := ih cs (m.setStr p v) (n.setStr p v)
        refine ⟨i1, i2, i3, ?_⟩
        intro a
        rcases i4 a with e | ⟨e1, e2⟩
        · exact Or.inl e
        · by_cases hap : a = p
          · left; rw [e1, e2]; simp [Mem.setStr, hap]
          · right; rw [e1, e2]; simp [Mem.setStr, hap]

/-- Running the binding loop again on the memory it left changes nothing. -/
theorem bindLoop_idem (gs cs : ptuple) (m : Mem) :
    (bindLoop gs cs (bindLoop gs cs m).1).1 = (bindLoop gs cs m).1 := by
  obtain ⟨_, h2, h3, h4⟩ := bindLoop_agree gs cs m (bindLoop gs cs m).1
  apply Mem.eq_of_fields
  · funext a
    rcases h2 a with e | ⟨_, e⟩
    · exact e.symm
    · exact e
  · funext a
    rcases h3 a with e | ⟨_, e⟩
    · exact e.symm
    · exact e
  · funext a
    rcases h4 a with e | ⟨_, e⟩
    · exact e.symm
    · exact e

theorem try_copy_again (P : ptuple) (ts : List ptuple) (mem : Mem)
    (hstore : LiteralStore ts) (hex : ∃ t ∈ ts, Spec.satisfies P t = true) :
    (try_copy P ts mem).result = some true ∧ (try_copy P ts mem).tuples = ts ∧
    try_copy P ts (try_copy P ts mem).mem = try_copy P ts mem := by
  obtain ⟨it, sel, hs, hsel, _, _, _, he⟩ :=
    try_copytake_true_of_satisfied false P ts mem hstore hex
  obtain ⟨it2, sel2, hs2, hsel2, _, _, _, he2⟩ :=
    try_copytake_true_of_satisfied false P ts (bindLoop P sel mem).1 hstore hex
  have hit : it2 = it := by
    rw [hs] at hs2
    exact (Option.some.inj hs2).symm
  subst hit
  have hsl : sel2 = sel := by
    rw [hsel] at hsel2
    exact (Option.some.inj hsel2).symm
  subst hsl
  unfold try_copy
  rw [he]
  refine ⟨rfl, by simp, ?_⟩
  simp only []
  rw [he2, bindLoop_idem]

theorem try_copy_repeat_all (P : ptuple) (ts : List ptuple)
    (hstore : LiteralStore ts) (hex : ∃ t ∈ ts, Spec.satisfies P t = true) (n : Nat) (mem : Mem) :
    (try_copy_repeat P n ts mem).length = n ∧
    ∀ r ∈ try_copy_repeat P n ts mem, r = try_copy P ts mem := by
  induction n generalizing mem with
  | zero => simp [try_copy_repeat]
  | succ k ih =>
    obtain ⟨_, h2, h3⟩ := try_copy_again P ts mem hstore hex
    simp only [try_copy_repeat, h2, List.length_cons, List.mem_cons]
    obtain ⟨il, ia⟩ := ih (try_copy P ts mem).mem
    refine ⟨by rw [il], ?_⟩
    rintro r (hr | hr)
    · exact hr
    · rw [ia r hr, h3]

/-- C5: on a store of tuples of Values holding a tuple that satisfies `P`, for
every `n ≥ 1` the `n` successive calls `try_copy(P)` all return true, all leave
the caller memory as the first call left it (the same values are bound each
time), and all leave the store equal to the original store. -/
theorem C5_repeated_try_copy (P : ptuple) (tuples : List ptuple) (mem : Mem)
    (hstore : LiteralStore tuples) (hex : ∃ t ∈ tuples, Spec.satisfies P t = true)
    (n : Nat) (hn : 1 ≤ n) :
    (try_copy_repeat P n tuples mem).length = n ∧
    (∃ r, r ∈ try_copy_repeat P n tuples mem) ∧
    ∀ r ∈ try_copy_repeat P n tuples mem,
      r.result = some true ∧ r.tuples = tuples ∧ r.mem = (try_copy P tuples mem).mem := by
  obtain ⟨hl, ha⟩ := try_copy_repeat_all P tuples hstore hex n mem
  obtain ⟨h1, h2, _⟩ := try_copy_again P tuples mem hstore hex
  refine ⟨hl, ?_, ?_⟩
  · cases hn' : try_copy_repeat P n tuples mem with
    | nil => rw [hn'] at hl; simp at hl; omega
    | cons r rs => exact ⟨r, by simp⟩
  · intro r hr
    rw [ha r hr]
    exact ⟨h1, h2, rfl⟩

/-- Witness of C5: three successive `try_copy(44, "meow")` of `src/test.cpp`. -/
theorem C5_witness :
    LiteralStore testStore ∧ (∃ t ∈ testStore, Spec.satisfies tMeow2 t = true) ∧ 1 ≤ 3 ∧
    (try_copy_repeat tMeow2 3 testStore Mem.zero).length = 3 ∧
    (∃ r, r ∈ try_copy_repeat tMeow2 3 testStore Mem.zero) ∧
    ∀ r ∈ try_copy_repeat tMeow2 3 testStore Mem.zero,
      r.result = some true ∧ r.tuples = testStore ∧
        r.mem = (try_copy tMeow2 testStore Mem.zero).mem :=
  ⟨by decide, ⟨tMeow2, by decide, by decide⟩, by decide,
   C5_repeated_try_copy tMeow2 testStore Mem.zero (by decide) ⟨tMeow2, by decide, by decide⟩
     3 (by decide)⟩

/-! ## C6 -/

theorem literalStore_eraseIdx (ts : List ptuple) (it : Nat) (h : LiteralStore ts) :
    LiteralStore (ts.eraseIdx it) :=
  fun t ht => h t (List.mem_of_mem_eraseIdx ht)

/-- C6: on a store of tuples of Values in which exactly one tuple instance
satisfies `P`, the first `try_take(P)` returns true and a second `try_take(P)`
run right after it, on the store and memory the first one left, returns false. -/
theorem C6_take_once_then_fail (P : ptuple) (tuples : List ptuple) (mem : Mem)
    (hstore : LiteralStore tuples)
    (hone : tuples.countP (fun t => Spec.satisfies P t) = 1) :
    (try_take P tuples mem).result = some true ∧
    (try_take P (try_take P tuples mem).tuples (try_take P tuples mem).mem).result =
      some false := by
  have hex : ∃ t ∈ tuples, Spec.satisfies P t = true := by
    have hpos : 0 < tuples.countP (fun t => Spec.satisfies P t) := by omega
    simpa using List.countP_pos_iff.1 hpos
  obtain ⟨it, sel, _, hsel, _, hsat, _, he⟩ :=
    try_copytake_true_of_satisfied true P tuples mem hstore hex
  unfold try_take
  rw [he]
  refine ⟨rfl, ?_⟩
  simp only [if_true]
  rw [try_copytake_result_false_iff true P _ _ (literalStore_eraseIdx tuples it hstore)]
  rintro ⟨t, ht, htsat⟩
  have hp := (perm_cons_eraseIdx tuples it sel hsel).countP_eq (fun t => Spec.satisfies P t)
  rw [hone, List.countP_cons, hsat] at hp
  simp only [if_true] at hp
  have hz : (tuples.eraseIdx it).countP (fun t => Spec.satisfies P t) = 0 := by omega
  rw [List.countP_eq_zero] at hz
  exact hz t ht htsat

/-- Witness of C6: the two `try_take(44, "meow")` of `src/test.cpp`. -/
theorem C6_witness :
    LiteralStore testStore ∧ testStore.countP (fun t => Spec.satisfies tMeow2 t) = 1 ∧
    (try_take tMeow2 testStore Mem.zero).result = some true ∧
    (try_take tMeow2 (try_take tMeow2 testStore Mem.zero).tuples
      (try_take tMeow2 testStore Mem.zero).mem).result = some false :=
  ⟨by decide, by decide, C6_take_once_then_fail tMeow2 testStore Mem.zero (by decide) (by decide)⟩

/-! ## C7 -/

theorem multiset_insert_perm (v : ptuple) (xs : List ptuple) :
    List.Perm (multiset_insert v xs) (v :: xs) := by
  induction xs with
  | nil => simp [multiset_insert]
  | cons x xs ih =>
    unfold multiset_insert
    split
    · exact List.Perm.refl _
    · exact (ih.cons x).trans (List.Perm.swap v x xs)

theorem matchLambda_self (e : pelem) (h : e.isNaN = false) : matchLambda e e = true := by
  cases e <;> simp_all [matchLambda, pelem.index, pelem.eq, pelem.isNaN, Double.eq]

theorem matchLoop_self (t : ptuple) (h : ∀ e ∈ t, e.isNaN = false) : matchLoop t t = true := by
  induction t with
  | nil => rfl
  | cons e es ih =>
    have he := matchLambda_self e (h e (by simp))
    simp only [matchLoop, he, Bool.not_true, Bool.false_eq_true, if_false]
    exact ih fun x hx => h x (by simp [hx])

theorem bindLoop_literal_goal (gs cs : ptuple) (m : Mem) (hg : literalTuple gs = true) :
    bindLoop gs cs m = (m, true) := by
  induction gs generalizing cs with
  | nil => cases cs <;> rfl
  | cons g gs ih =>
    cases cs with
    | nil => rfl
    | cons c cs =>
      simp only [literalTuple, List.all_cons, Bool.and_eq_true, Bool.not_eq_true'] at hg
      have hv : bindVisit g c m = some m := by
        cases g <;> simp_all [bindVisit, pelem.isPointer]
      simp only [bindLoop, hv]
      exact ih cs hg.2

theorem try_copy_literal_goal (P : ptuple) (ts : List ptuple) (mem : Mem) (t : ptuple)
    (hP : literalTuple P = true) (ht : t ∈ ts) (hacc : accepts P t = true) :
    (try_copy P ts mem).result = some true ∧ (try_copy P ts mem).tuples = ts ∧
    (try_copy P ts mem).mem = mem := by
  rcases try_copytake_cases false P ts mem with ⟨hn, _⟩ | ⟨it, sel, _, _, _, _, _, hc⟩
  · have := (scan_eq_none_iff P ts).1 hn t ht
    simp [hacc] at this
  · have hb := bindLoop_literal_goal P sel mem hP
    unfold try_copy
    rcases hc with ⟨_, he⟩ | ⟨hf, _⟩
    · rw [he, hb]; simp
    · rw [hb] at hf; simp at hf

/-- C7 as stated fails: after `put(NaN)` on the empty store, `try_copy(NaN)`
with the all-literal pattern equal to the tuple just put returns false. -/
theorem C7_counterexample :
    literalTuple [.dbl Double.nan] = true ∧
    (put [.dbl Double.nan] []).count [.dbl Double.nan] = 1 ∧
    (try_copy [.dbl Double.nan] (put [.dbl Double.nan] []) Mem.zero).result = some false := by
  decide

/-- C7 (amended): for every store and every tuple `t` of any arity, `put(t)`
yields a store in which the multiplicity of `t` is one more than before and
the multiplicity of every other tuple is unchanged (a tuple already stored is
not deduplicated); and when `t` is a tuple of Values none of which is a
floating-point NaN, a following `try_copy` with the all-literal pattern equal
to `t` returns true and leaves the store as `put` left it. -/
theorem C7_put_adds_one_instance (t : ptuple) (tuples : List ptuple) (mem : Mem) :
    (put t tuples).count t = tuples.count t + 1 ∧
    (∀ u, u ≠ t → (put t tuples).count u = tuples.count u) ∧
    (literalTuple t = true → (∀ e ∈ t, e.isNaN = false) →
      (try_copy t (put t tuples) mem).result = some true ∧
      (try_copy t (put t tuples) mem).tuples = put t tuples) := by
  refine ⟨?_, ?_, ?_⟩
  · have hp := (multiset_insert_perm t tuples).countP_eq (· == t)
    simp only [put, List.count, hp, List.countP_cons, beq_self_eq_true, if_true]
  · intro u hu
    have hp := (multiset_insert_perm t tuples).countP_eq (· == u)
    have hne : (t == u) = false := by simpa using hu.symm
    simp only [put, List.count, hp, List.countP_cons, hne, Bool.false_eq_true, if_false,
      Nat.add_zero]
  · intro hlit hnan
    have hmem : t ∈ put t tuples :=
      (multiset_insert_perm t tuples).mem_iff.2 (by simp)
    have hacc : accepts t t = true := by
      simp [accepts, matchLoop_self t hnan]
    obtain ⟨h1, h2, _⟩ := try_copy_literal_goal t (put t tuples) mem t hlit hmem hacc
    exact ⟨h1, h2⟩

/-- Witness of C7 (amended): the second `put(3, 1.2, "meow", 4)` of
`src/test.cpp` and the `try_copy(3, 1.2, "meow", 4)` after it. -/
theorem C7_witness :
    (put tMeow4 [tMeow4]).count tMeow4 = [tMeow4].count tMeow4 + 1 ∧
    (tMeow2 ≠ tMeow4 ∧ (put tMeow4 [tMeow4]).count tMeow2 = [tMeow4].count tMeow2) ∧
    (literalTuple tMeow4 = true ∧ (∀ e ∈ tMeow4, e.isNaN = false) ∧
      (try_copy tMeow4 (put tMeow4 [tMeow4]) Mem.zero).result = some true ∧
      (try_copy tMeow4 (put tMeow4 [tMeow4]) Mem.zero).tuples = put tMeow4 [tMeow4]) :=
  ⟨(C7_put_adds_one_instance tMeow4 [tMeow4] Mem.zero).1,
   ⟨by decide, (C7_put_adds_one_instance tMeow4 [tMeow4] Mem.zero).2.1 tMeow2 (by decide)⟩,
   ⟨by decide, by decide,
    (C7_put_adds_one_instance tMeow4 [tMeow4] Mem.zero).2.2 (by decide) (by decide)⟩⟩

/-! ## C8 -/

theorem length_eq_of_accepts (P sel : ptuple) (h : accepts P sel = true) :
    sel.length = P.length :=
  (matchLoop_of_accepts P sel h).1.symm

/-- C8: for a pattern `P` of any arity `n` (also 0), `try_copy` and `try_take`
never select a stored tuple of another arity: when every stored tuple has an
arity different from `n` both return false; the tuple at the position where
the scan stops has arity `n`; and on success the selected tuple has arity `n`. -/
theorem C8_arity_discrimination (P : ptuple) (tuples : List ptuple) (mem : Mem) :
    ((∀ t ∈ tuples, t.length ≠ P.length) →
      (try_copy P tuples mem).result = some false ∧
      (try_take P tuples mem).result = some false) ∧
    (∀ it, scan P tuples = some it →
      ∃ sel, tuples[it]? = some sel ∧ sel.length = P.length) ∧
    (∀ remove, (try_copytake remove P tuples mem).result = some true →
      ∃ it sel, scan P tuples = some it ∧ tuples[it]? = some sel ∧ sel.length = P.length ∧
        (try_copytake remove P tuples mem).tuples =
          if remove then tuples.eraseIdx it else tuples) := by
  refine ⟨?_, ?_, ?_⟩
  · intro hall
    have hn : scan P tuples = none := by
      rw [scan_eq_none_iff]
      intro t ht
      have := hall t ht
      simp [accepts, Ne.symm this]
    simp [try_copy, try_take, try_copytake, hn]
  · intro it hs
    obtain ⟨sel, hsel, hacc, _⟩ := scan_eq_some P tuples it hs
    exact ⟨sel, hsel, length_eq_of_accepts P sel hacc⟩
  · intro remove h
    obtain ⟨it, sel, hs, hsel, _, hacc, _, he⟩ :=
      try_copytake_true_selected remove P tuples mem h
    exact ⟨it, sel, hs, hsel, length_eq_of_accepts P sel hacc, by rw [he]⟩

/-- Witness of C8: the pattern of arity 0 on the store of `src/test.cpp`, whose
tuples have arities 4, 4 and 2; and `try_take(44, "meow")` selecting the tuple
of arity 2. -/
theorem C8_witness :
    ((∀ t ∈ testStore, t.length ≠ ([] : ptuple).length) ∧
      (try_copy [] testStore Mem.zero).result = some false ∧
      (try_take [] testStore Mem.zero).result = some false) ∧
    (scan tMeow2 testStore = some 2 ∧
      ∃ sel, testStore[2]? = some sel ∧ sel.length = tMeow2.length) ∧
    ((try_copytake true tMeow2 testStore Mem.zero).result = some true ∧
      ∃ it sel, scan tMeow2 testStore = some it ∧ testStore[it]? = some sel ∧
        sel.length = tMeow2.length ∧
        (try_copytake true tMeow2 testStore Mem.zero).tuples =
          if true then testStore.eraseIdx it else testStore) :=
  ⟨⟨by decide, (C8_arity_discrimination [] testStore Mem.zero).1 (by decide)⟩,
   ⟨by decide, (C8_arity_discrimination tMeow2 testStore Mem.zero).2.1 2 (by decide)⟩,
   ⟨by decide, (C8_arity_discrimination tMeow2 testStore Mem.zero).2.2 true (by decide)⟩⟩

/-! ## C9 -/

theorem matchLambda_false_of_kind_ne (g c : pelem) (h : g.kind ≠ c.kind) :
    matchLambda g c = false := by
  cases g <;> cases c <;>
    simp_all [matchLambda, pelem.kind, pelem.pat, Spec.kindOf, pelem.index]

theorem matchLoop_false_of_position (gs cs : ptuple) (i : Nat) (g c : pelem)
    (hg : gs[i]? = some g) (hc : cs[i]? = some c) (hm : matchLambda g c = false) :
    matchLoop gs cs = false := by
  induction gs generalizing cs i with
  | nil => simp at hg
  | cons g0 gs ih =>
    cases cs with
    | nil => simp at hc
    | cons c0 cs =>
      cases i with
      | zero =>
        simp only [List.getElem?_cons_zero, Option.some.injEq] at hg hc
        subst hg; subst hc
        simp [matchLoop, hm]
      | succ k =>
        simp only [List.getElem?_cons_succ] at hg hc
        have := ih cs k hg hc
        cases hx : matchLambda g0 c0 <;> simp [matchLoop, hx, this]

/-- C9: a pattern element and a stored element of different kinds never match,
be the pattern element a wildcard or a literal; and a call whose pattern
differs in kind, at some position, from every stored tuple of its arity
returns plain false with store and memory untouched, exactly as it does on the
empty store. -/
theorem C9_kind_mismatch_is_plain_failure (P : ptuple) (tuples : List ptuple) (mem : Mem) :
    (∀ g c : pelem, g.kind ≠ c.kind → matchLambda g c = false) ∧
    ((∀ t ∈ tuples, t.length = P.length →
        ∃ (i : Nat) (g c : pelem), P[i]? = some g ∧ t[i]? = some c ∧ g.kind ≠ c.kind) →
      (try_copy P tuples mem).result = some false ∧
      (try_copy P tuples mem).tuples = tuples ∧ (try_copy P tuples mem).mem = mem ∧
      (try_take P tuples mem).result = some false ∧
      (try_take P tuples mem).tuples = tuples ∧ (try_take P tuples mem).mem = mem ∧
      (try_copy P tuples mem).result = (try_copy P [] mem).result ∧
      (try_take P tuples mem).result = (try_take P [] mem).result) := by
  refine ⟨matchLambda_false_of_kind_ne, ?_⟩
  intro hall
  have hn : scan P tuples = none := by
    rw [scan_eq_none_iff]
    intro t ht
    by_cases hlen : t.length = P.length
    · obtain ⟨i, g, c, hg, hc, hk⟩ := hall t ht hlen
      have hm := matchLoop_false_of_position P t i g c hg hc
        (matchLambda_false_of_kind_ne g c hk)
      simp [accepts, hm]
    · simp [accepts, Ne.symm hlen]
  simp [try_copy, try_take, try_copytake, hn, scan]

/-- Witness of C9: integer 4 against floating-point 4.0, as a literal and as a
wildcard, and `try_copy(4)` on a store holding only `(4.0)`. -/
theorem C9_witness :
    (pelem.int 4).kind ≠ (pelem.dbl Double.d4_0).kind ∧
    matchLambda (.int 4) (.dbl Double.d4_0) = false ∧
    matchLambda (.intp 0) (.dbl Double.d4_0) = false ∧
    (try_copy [.int 4] [[.dbl Double.d4_0]] Mem.zero).result = some false ∧
    (try_copy [.int 4] [[.dbl Double.d4_0]] Mem.zero).result =
      (try_copy [.int 4] [] Mem.zero).result :=
  ⟨by decide,
   (C9_kind_mismatch_is_plain_failure [.int 4] [[.dbl Double.d4_0]] Mem.zero).1 _ _ (by decide),
   (C9_kind_mismatch_is_plain_failure [.int 4] [[.dbl Double.d4_0]] Mem.zero).1 _ _ (by decide),
   ((C9_kind_mismatch_is_plain_failure [.int 4] [[.dbl Double.d4_0]] Mem.zero).2
      (by
        intro t ht _
        simp only [List.mem_singleton] at ht
        subst ht
        exact ⟨0, .int 4, .dbl Double.d4_0, rfl, rfl, by decide⟩)).1,
   ((C9_kind_mismatch_is_plain_failure [.int 4] [[.dbl Double.d4_0]] Mem.zero).2
      (by
        intro t ht _
        simp only [List.mem_singleton] at ht
        subst ht
        exact ⟨0, .int 4, .dbl Double.d4_0, rfl, rfl, by decide⟩)).2.2.2.2.2.2.1⟩

/-! ## C10 -/

theorem matchLambda_of_matchLoop (gs cs : ptuple) (i : Nat) (g c : pelem)
    (hm : matchLoop gs cs = true) (hg : gs[i]? = some g) (hc : cs[i]? = some c) :
    matchLambda g c = true := by
  cases hx : matchLambda g c with
  | true => rfl
  | false =>
    rw [matchLoop_false_of_position gs cs i g c hg hc hx] at hm
    simp at hm

theorem isPointer_false_of_literalTuple (t : ptuple) (i : Nat) (c : pelem)
    (ht : literalTuple t = true) (hc : t[i]? = some c) : c.isPointer = false := by
  have hmem : c ∈ t := mem_of_getElem?_eq_some t i c hc
  simp only [literalTuple, List.all_eq_true, Bool.not_eq_true'] at ht
  exact ht c hmem

theorem deref_eq_retVisit (m : Mem) (g : pelem) (hg : g.isPointer = true) :
    m.deref g = some (retVisit m g) := by
  cases g <;> simp_all [Mem.deref, retVisit, pelem.isPointer]

theorem retVisit_literal (m : Mem) (g c : pelem) (hg : g.isPointer = false)
    (hc : c.isPointer = false) (hm : matchLambda g c = true) :
    g.value? = some (retVisit m g) ∧ ∃ v, c.value? = some v ∧ (retVisit m g).eq v = true := by
  cases g <;> cases c <;>
    simp_all [matchLambda, pelem.index, pelem.eq, pelem.isPointer, pelem.value?, retVisit, elem.eq]

theorem distinctPointers_index (P : ptuple) (hd : DistinctPointers P) (i j : Nat) (g : pelem)
    (hij : i < j) (hi : P[i]? = some g) (hj : P[j]? = some g) : g.isPointer = false := by
  induction P generalizing i j with
  | nil => simp at hi
  | cons g0 gs ih =>
    cases j with
    | zero => omega
    | succ l =>
      simp only [List.getElem?_cons_succ] at hj
      cases i with
      | zero =>
        simp only [List.getElem?_cons_zero, Option.some.injEq] at hi
        subst hi
        cases hp : g0.isPointer with
        | false => rfl
        | true =>
          exfalso
          have hmem : g0 ∈ gs.filter pelem.isPointer :=
            List.mem_filter.2 ⟨mem_of_getElem?_eq_some gs l g0 hj, hp⟩
          simp only [DistinctPointers, List.filter_cons, hp, if_true, List.nodup_cons] at hd
          exact hd.1 hmem
      | succ k =>
        simp only [List.getElem?_cons_succ] at hi
        have hd2 : DistinctPointers gs := by
          unfold DistinctPointers at hd ⊢
          rw [List.filter_cons] at hd
          split at hd
          · exact (List.nodup_cons.1 hd).2
          · exact hd
        exact ih hd2 k l (by omega) hi hj

theorem returned_of_bindLoop (P sel : ptuple) (mem : Mem) (hacc : accepts P sel = true)
    (hb : (bindLoop P sel mem).2 = true) (hd : DistinctPointers P) :
    Returned P sel (P.map (retVisit (bindLoop P sel mem).1)) (bindLoop P sel mem).1 := by
  obtain ⟨hlen, hm⟩ := matchLoop_of_accepts P sel hacc
  have hlit := literalTuple_of_bindLoop P sel mem hlen hm hb
  refine ⟨by simp, ?_⟩
  intro i g c hg hc
  have hcl := isPointer_false_of_literalTuple sel i c hlit hc
  have hmg := matchLambda_of_matchLoop P sel i g c hm hg hc
  have hr : (P.map (retVisit (bindLoop P sel mem).1))[i]? =
      some (retVisit (bindLoop P sel mem).1 g) := by
    simp [List.getElem?_map, hg]
  cases hp : g.isPointer with
  | true =>
    have hlast : ∀ j : Nat, i < j → P[j]? ≠ some g := by
      intro j hij hj
      have := distinctPointers_index P hd i j g hij hg hj
      rw [hp] at this
      simp at this
    have hd1 := bindLoop_deref P sel mem hb i g c hg hc hp hlast
    have hd2 := deref_eq_retVisit (bindLoop P sel mem).1 g hp
    refine ⟨retVisit (bindLoop P sel mem).1 g, retVisit (bindLoop P sel mem).1 g, hr, ?_, ?_, ?_⟩
    · rw [← hd1, hd2]
    · intro _; exact ⟨hd2, rfl⟩
    · intro h; simp at h
  | false =>
    obtain ⟨h1, v, h2, h3⟩ := retVisit_literal (bindLoop P sel mem).1 g c hp hcl hmg
    refine ⟨retVisit (bindLoop P sel mem).1 g, v, hr, h2, ?_, ?_⟩
    · intro h; simp at h
    · intro _; exact ⟨h1, h3⟩

theorem copytake_of_true (remove : Bool) (P : ptuple) (ts ts1 : List ptuple) (mem m1 : Mem)
    (he : try_copytake remove P ts mem = ⟨some true, ts1, m1⟩) :
    copytake remove P ts mem = .returned (P.map (retVisit m1)) ts1 m1 := by
  simp [copytake, he]

theorem copytake_ret_some (remove : Bool) (P : ptuple) (ts : List ptuple) (mem : Mem)
    (ret : tuple) (h : (copytake remove P ts mem).ret? = some ret) :
    (try_copytake remove P ts mem).result = some true := by
  unfold copytake at h
  split at h
  · rename_i he; rw [he]
  · simp [Outcome.ret?] at h
  · simp [Outcome.ret?] at h

/-- C10 as stated fails: with the same pointer passed at both positions,
`take(&p, &p)` on the store holding only `(1, 2)` returns `(2, 2)`, a tuple
that was never in the store, and removes `(1, 2)`. -/
theorem C10_counterexample :
    LiteralStore [[.int 1, .int 2]] ∧
    Spec.satisfies [.intp 0, .intp 0] [.int 1, .int 2] = true ∧
    (take [.intp 0, .intp 0] [[.int 1, .int 2]] Mem.zero).ret? = some [.int 2, .int 2] ∧
    (take [.intp 0, .intp 0] [[.int 1, .int 2]] Mem.zero).tuples = [] ∧
    ¬ ∃ sel ∈ [[pelem.int 1, pelem.int 2]],
        sel.map pelem.value? = [some (elem.int 2), some (elem.int 2)] := by
  decide

/-- C10 (amended): on a store of tuples of Values holding a tuple that
satisfies `P`, where no output pointer is passed at two positions of `P`,
`copy(P)` and `take(P)` return in the first turn of their loop, without
waiting, a tuple of the arity of `P` whose value at each literal position is
that literal (which `==` finds equal to the stored value) and at each wildcard
position is the value bound there, which is exactly the value at that position
of the selected stored tuple; `copy` leaves the store unchanged and `take`
removes exactly one instance of the selected tuple. For every store and
pattern, `copy` and `take` return a tuple only when a stored tuple satisfying
`P` was selected. -/
theorem C10_copy_take_return_selected (P : ptuple) (tuples : List ptuple) (mem : Mem) :
    (LiteralStore tuples → (∃ t ∈ tuples, Spec.satisfies P t = true) → DistinctPointers P →
      ∃ it sel, scan P tuples = some it ∧ tuples[it]? = some sel ∧
        Spec.satisfies P sel = true ∧
        (∃ ret, (copy P tuples mem).ret? = some ret ∧
          Returned P sel ret (copy P tuples mem).mem) ∧
        (copy P tuples mem).tuples = tuples ∧
        (∃ ret, (take P tuples mem).ret? = some ret ∧
          Returned P sel ret (take P tuples mem).mem) ∧
        (take P tuples mem).tuples = tuples.eraseIdx it ∧
        (take P tuples mem).tuples.length + 1 = tuples.length ∧
        (take P tuples mem).tuples.count sel + 1 = tuples.count sel ∧
        ∀ u, u ≠ sel → (take P tuples mem).tuples.count u = tuples.count u) ∧
    (∀ remove ret, (copytake remove P tuples mem).ret? = some ret →
      ∃ it sel, scan P tuples = some it ∧ tuples[it]? = some sel ∧ sel ∈ tuples ∧
        Spec.satisfies P sel = true ∧ ret.length = P.length ∧
        (DistinctPointers P → Returned P sel ret (copytake remove P tuples mem).mem)) := by
  constructor
  · intro hstore hex hd
    obtain ⟨it, sel, hs, hsel, _, hsat, hb, he⟩ :=
      try_copytake_true_of_satisfied false P tuples mem hstore hex
    obtain ⟨it2, sel2, hs2, hsel2, _, _, _, he2⟩ :=
      try_copytake_true_of_satisfied true P tuples mem hstore hex
    have hit : it2 = it := by
      rw [hs] at hs2
      exact (Option.some.inj hs2).symm
    subst hit
    have hsl : sel2 = sel := by
      rw [hsel] at hsel2
      exact (Option.some.inj hsel2).symm
    subst hsl
    have hacc : accepts P sel2 = true := by
      obtain ⟨x, hx, hax, _⟩ := scan_eq_some P tuples it2 hs
      rw [hsel] at hx
      rw [Option.some.inj hx]
      exact hax
    have hR := returned_of_bindLoop P sel2 mem hacc hb hd
    have hc : copy P tuples mem = .returned (P.map (retVisit (bindLoop P sel2 mem).1)) tuples
        (bindLoop P sel2 mem).1 := by
      simpa [copy] using copytake_of_true false P tuples _ mem _ he
    have ht : take P tuples mem = .returned (P.map (retVisit (bindLoop P sel2 mem).1))
        (tuples.eraseIdx it2) (bindLoop P sel2 mem).1 := by
      simpa [take] using copytake_of_true true P tuples _ mem _ he2
    rw [hc, ht]
    refine ⟨it2, sel2, hs, hsel, hsat, ⟨_, rfl, hR⟩, rfl, ⟨_, rfl, hR⟩, rfl, ?_, ?_, ?_⟩
    · exact length_eraseIdx_succ tuples it2 sel2 hsel
    · exact count_eraseIdx_self tuples it2 sel2 hsel
    · intro u hu
      exact count_eraseIdx_other tuples it2 sel2 u hsel hu
  · intro remove ret hret
    have htrue := copytake_ret_some remove P tuples mem ret hret
    obtain ⟨it, sel, hs, hsel, hmem, hacc, hb, he⟩ :=
      try_copytake_true_selected remove P tuples mem htrue
    obtain ⟨hlen, hm⟩ := matchLoop_of_accepts P sel hacc
    have hlit := literalTuple_of_bindLoop P sel mem hlen hm hb
    have hc := copytake_of_true remove P tuples _ mem _ he
    rw [hc] at hret ⊢
    simp only [Outcome.ret?, Option.some.injEq] at hret
    subst hret
    refine ⟨it, sel, hs, hsel, hmem, ?_, by simp, ?_⟩
    · rw [← accepts_eq_satisfies P sel hlit]; exact hacc
    · intro hd
      exact returned_of_bindLoop P sel mem hacc hb hd

/-- Witness of C10 (amended): `take("qqq", &v)` of `src/test.cpp` on a store
holding `("aqq", "zzz")` and `("qqq", 777)`. -/
theorem C10_witness :
    LiteralStore [[.str "aqq", .str "zzz"], [.str "qqq", .int 777]] ∧
    (∃ t ∈ [[pelem.str "aqq", pelem.str "zzz"], [.str "qqq", .int 777]],
      Spec.satisfies [.str "qqq", .intp 0] t = true) ∧
    DistinctPointers [.str "qqq", .intp 0] ∧
    (take [.str "qqq", .intp 0] [[.str "aqq", .str "zzz"], [.str "qqq", .int 777]]
      Mem.zero).ret? = some [.str "qqq", .int 777] ∧
    ∃ it sel,
      scan [.str "qqq", .intp 0] [[.str "aqq", .str "zzz"], [.str "qqq", .int 777]] = some it ∧
      [[pelem.str "aqq", pelem.str "zzz"], [.str "qqq", .int 777]][it]? = some sel ∧
      ∃ ret, (take [.str "qqq", .intp 0] [[.str "aqq", .str "zzz"], [.str "qqq", .int 777]]
          Mem.zero).ret? = some ret ∧
        Returned [.str "qqq", .intp 0] sel ret
          (take [.str "qqq", .intp 0] [[.str "aqq", .str "zzz"], [.str "qqq", .int 777]]
            Mem.zero).mem := by
  refine ⟨by decide, by decide, by decide, by decide, ?_⟩
  obtain ⟨it, sel, h1, h2, _, _, _, h3, _⟩ :=
    (C10_copy_take_return_selected [.str "qqq", .intp 0]
      [[.str "aqq", .str "zzz"], [.str "qqq", .int 777]] Mem.zero).1
      (by decide) (by decide) (by decide)
  exact ⟨it, sel, h1, h2, h3⟩

/-! ## C11 -/

/-- C11 fails on the code: after `put(1, &q)`, which stores the pointer
unchecked, `try_copy(&a, &b)` and `try_take(&a, &b)` accept the stored tuple
(the match lambda compares `index() / 2` only), write `a = 1`, and are then left
by `std::bad_variant_access` at the second position: the call neither succeeds
nor returns false, and a binding has been written. -/
theorem C11_stored_pointer_faults :
    scan [.intp 0, .intp 1] (put [.int 1, .intp 7] []) = some 0 ∧
    (try_copy [.intp 0, .intp 1] (put [.int 1, .intp 7] []) Mem.zero).result = none ∧
    (try_copy [.intp 0, .intp 1] (put [.int 1, .intp 7] []) Mem.zero).mem.ints 0 = 1 ∧
    Mem.zero.ints 0 = 0 ∧
    (try_take [.intp 0, .intp 1] (put [.int 1, .intp 7] []) Mem.zero).result = none ∧
    (try_take [.intp 0, .intp 1] (put [.int 1, .intp 7] []) Mem.zero).mem.ints 0 = 1 := by
  decide

/-! ## C18 -/

theorem literalStore_put (t : ptuple) (s : List ptuple) (ht : literalTuple t = true)
    (hs : LiteralStore s) : LiteralStore (put t s) := by
  intro u hu
  have hmem : u ∈ t :: s := (multiset_insert_perm t s).mem_iff.1 hu
  rcases List.mem_cons.1 hmem with rfl | h
  · exact ht
  · exact hs u h

theorem try_copytake_tuples_subset (remove : Bool) (P : ptuple) (s : List ptuple) (mem : Mem)
    (u : ptuple) (hu : u ∈ (try_copytake remove P s mem).tuples) : u ∈ s := by
  rcases try_copytake_cases remove P s mem with ⟨_, he⟩ | ⟨it, sel, _, _, _, _, _, hc⟩
  · rw [he] at hu; exact hu
  · rcases hc with ⟨_, he⟩ | ⟨_, he⟩
    · rw [he] at hu
      cases remove with
      | true => exact List.mem_of_mem_eraseIdx (by simpa using hu)
      | false => simpa using hu
    · rw [he] at hu; exact hu

theorem copytake_tuples (remove : Bool) (P : ptuple) (s : List ptuple) (mem : Mem) :
    (copytake remove P s mem).tuples = (try_copytake remove P s mem).tuples := by
  unfold copytake
  split <;> rename_i he <;> rw [he] <;> rfl

theorem literalStore_try_copytake (remove : Bool) (P : ptuple) (s : List ptuple) (mem : Mem)
    (hs : LiteralStore s) : LiteralStore (try_copytake remove P s mem).tuples :=
  fun u hu => hs u (try_copytake_tuples_subset remove P s mem u hu)

theorem try_copytake_result_ne_none (remove : Bool) (P : ptuple) (s : List ptuple) (mem : Mem)
    (hs : LiteralStore s) : (try_copytake remove P s mem).result ≠ none := by
  rcases try_copytake_cases remove P s mem with ⟨_, he⟩ | ⟨it, sel, _, _, hmem, hacc, _, hc⟩
  · rw [he]; simp
  · have hb := bindLoop_snd_of_matchLoop P sel mem (hs sel hmem) (matchLoop_of_accepts P sel hacc).2
    rcases hc with ⟨_, he⟩ | ⟨hf, _⟩
    · rw [he]; simp
    · rw [hb] at hf; simp at hf

theorem wildcard_extraction (g c : pelem) (m : Mem) (hc : c.isPointer = false)
    (hg : g.isPointer = true) (hm : matchLambda g c = true) :
    (∃ v, c.value? = some v ∧ Spec.kindOf v = g.kind) ∧ ∃ m1, bindVisit g c m = some m1 := by
  cases g <;> cases c <;>
    simp_all [matchLambda, pelem.index, pelem.isPointer, pelem.value?, pelem.kind, pelem.pat,
      Spec.kindOf, bindVisit]

/-- C18: the predicate "every element of every stored tuple is a Value"
holds for the empty store and is preserved by `put` of Values, `try_copy`,
`try_take`, `copy` and `take`; and in a store satisfying it, whenever the match
test accepts a wildcard of kind K against the stored element at a position,
that element is a Value of kind K, the `std::get<t>` of the binding step
succeeds, and no call is left by an exception. -/
theorem C18_literal_store_invariant :
    LiteralStore [] ∧
    (∀ t s, literalTuple t = true → LiteralStore s → LiteralStore (put t s)) ∧
    (∀ P s mem, LiteralStore s →
      LiteralStore (try_copy P s mem).tuples ∧ LiteralStore (try_take P s mem).tuples ∧
      LiteralStore (copy P s mem).tuples ∧ LiteralStore (take P s mem).tuples) ∧
    (∀ s, LiteralStore s → ∀ t ∈ s, ∀ (i : Nat) (g c : pelem) (m : Mem),
      t[i]? = some c → g.isPointer = true → matchLambda g c = true →
      (∃ v, c.value? = some v ∧ Spec.kindOf v = g.kind) ∧ ∃ m1, bindVisit g c m = some m1) ∧
    (∀ P s mem, LiteralStore s →
      (try_copy P s mem).result ≠ none ∧ (try_take P s mem).result ≠ none) := by
  refine ⟨?_, literalStore_put, ?_, ?_, ?_⟩
  · intro t ht; simp at ht
  · intro P s mem hs
    refine ⟨literalStore_try_copytake false P s mem hs, literalStore_try_copytake true P s mem hs,
      ?_, ?_⟩
    · unfold copy; rw [copytake_tuples]; exact literalStore_try_copytake false P s mem hs
    · unfold take; rw [copytake_tuples]; exact literalStore_try_copytake true P s mem hs
  · intro s hs t ht i g c m hc hg hm
    exact wildcard_extraction g c m (isPointer_false_of_literalTuple t i c (hs t ht) hc) hg hm
  · intro P s mem hs
    exact ⟨try_copytake_result_ne_none false P s mem hs, try_copytake_result_ne_none true P s mem hs⟩

/-- Witness of C18: the store of `src/test.cpp`, one more `put(44, "meow")`,
and the wildcard of `try_copy(&p, 1.2, "meow", 4)` against the stored 3. -/
theorem C18_witness :
    (literalTuple tMeow2 = true ∧ LiteralStore testStore ∧ LiteralStore (put tMeow2 testStore)) ∧
    (LiteralStore (try_take tMeow2 testStore Mem.zero).tuples) ∧
    (tMeow4 ∈ testStore ∧ tMeow4[0]? = some (.int 3) ∧ (pelem.intp 0).isPointer = true ∧
      matchLambda (.intp 0) (.int 3) = true ∧
      (∃ v, (pelem.int 3).value? = some v ∧ Spec.kindOf v = (pelem.intp 0).kind) ∧
      ∃ m1, bindVisit (.intp 0) (.int 3) Mem.zero = some m1) ∧
    (try_take tMeow2 testStore Mem.zero).result ≠ none :=
  ⟨⟨by decide, by decide, C18_literal_store_invariant.2.1 tMeow2 testStore (by decide) (by decide)⟩,
   (C18_literal_store_invariant.2.2.1 tMeow2 testStore Mem.zero (by decide)).2.1,
   ⟨by decide, by decide, by decide, by decide,
    C18_literal_store_invariant.2.2.2.1 testStore (by decide) tMeow4 (by decide) 0 (.intp 0)
      (.int 3) Mem.zero (by decide) (by decide) (by decide)⟩,
   (C18_literal_store_invariant.2.2.2.2 tMeow2 testStore Mem.zero (by decide)).2⟩

/-! ## C15 -/

theorem outLoop_eq_go (fmt : elem → String) (es : tuple) (os acc : String) :
    outLoop fmt es (os ++ acc) ", " = os ++ String.intercalate.go acc ", " (es.map fmt) := by
  induction es generalizing acc with
  | nil => simp [outLoop, String.intercalate.go]
  | cons e es ih =>
    simp only [outLoop, List.map_cons, String.intercalate.go]
    rw [String.append_assoc os acc ", ", String.append_assoc os (acc ++ ", ") (fmt e)]
    exact ih (acc ++ ", " ++ fmt e)

/-- C15: for every tuple of values `v1..vn` with `n ≥ 1`, `operator<<` writes
"{ ", then the renderings of `v1..vn` separated by ", ", then " }"; for
the empty tuple it writes "{ }". -/
theorem C15_operator_out_format (fmt : elem → String) :
    (∀ t : tuple, t ≠ [] →
      operator_out fmt t = "\x7b " ++ ", ".intercalate (t.map fmt) ++ " \x7d") ∧
    operator_out fmt [] = "\x7b \x7d" := by
  constructor
  · intro t ht
    cases t with
    | nil => exact absurd rfl ht
    | cons e es =>
      have h := outLoop_eq_go fmt es "\x7b " (fmt e)
      have h0 : ("\x7b" : String) ++ " " = "\x7b " := by decide
      simp only [operator_out, outLoop, List.map_cons, String.intercalate, h0]
      rw [h]
  · show ("\x7b" : String) ++ " \x7d" = "\x7b \x7d"
    decide

/-- Witness of C15: the tuple `{44, "meow"}` of `src/test.cpp` on a stream in
its default state is written as "{ 44, meow }". -/
theorem C15_witness :
    ([elem.int 44, elem.str "meow"] : tuple) ≠ [] ∧
    operator_out (fmtDefault fun _ => "") [.int 44, .str "meow"] = "\x7b 44, meow \x7d" ∧
    operator_out (fmtDefault fun _ => "") [.int 44, .str "meow"] =
      "\x7b " ++ ", ".intercalate (([.int 44, .str "meow"] : tuple).map (fmtDefault fun _ => "")) ++
        " \x7d" :=
  ⟨by decide, by decide,
   (C15_operator_out_format (fmtDefault fun _ => "")).1 [.int 44, .str "meow"] (by decide)⟩

/-! ## C19 -/

theorem Double.eq_of_eq_of_not_zero (a b : Double) (h : a.eq b = true)
    (hz : a.isZero = false) : b = a := by
  obtain ⟨s1, e1, f1⟩ := a
  obtain ⟨s2, e2, f2⟩ := b
  have he1 := e1.isLt
  have hf1 := f1.isLt
  have he2 := e2.isLt
  have hf2 := f2.isLt
  simp only [Double.eq, Double.key, Double.isNaN, Double.isZero, Bool.and_eq_true,
    Bool.not_eq_true', beq_iff_eq, Bool.and_eq_false_iff, beq_eq_false_iff_ne, ne_eq] at h hz
  obtain ⟨_, hk⟩ := h
  have hfields : e2.val = e1.val ∧ f2.val = f1.val ∧ s2 = s1 := by
    cases s1 <;> cases s2 <;> simp at hk <;> refine ⟨?_, ?_, ?_⟩ <;> first | rfl | omega
  obtain ⟨h1, h2, h3⟩ := hfields
  have e12 : e2 = e1 := Fin.ext h1
  have f12 : f2 = f1 := Fin.ext h2
  subst e12; subst f12; subst h3
  rfl

theorem pelem_eq_exact (g c : pelem) (h : g.eq c = true) (hz : g.isZero = false) : c = g := by
  cases g <;> cases c <;> simp_all [pelem.eq, pelem.isZero]
  rename_i a b
  exact Double.eq_of_eq_of_not_zero a b h hz

theorem matchLambda_literal (g c : pelem) (hg : g.isPointer = false) :
    matchLambda g c = g.eq c := by
  cases g <;> cases c <;> simp_all [matchLambda, pelem.index, pelem.isPointer, pelem.eq]

theorem accepts_literal_goal (t u : ptuple) (ht : literalTuple t = true) :
    accepts t u = ptuple_eq t u := by
  induction t generalizing u with
  | nil => cases u <;> simp [accepts, matchLoop, ptuple_eq]
  | cons g gs ih =>
    simp only [literalTuple, List.all_cons, Bool.and_eq_true, Bool.not_eq_true'] at ht
    cases u with
    | nil => simp [accepts, ptuple_eq]
    | cons c cs =>
      have h := ih cs ht.2
      simp only [accepts, List.length_cons, ne_eq, add_left_inj, ite_not, matchLoop,
        matchLambda_literal g c ht.1, ptuple_eq] at h ⊢
      by_cases hl : gs.length = cs.length
      · simp only [hl, if_true] at h ⊢
        cases g.eq c <;> simp [h]
      · simp only [hl, if_false] at h ⊢
        simp [← h]

theorem ptuple_eq_exact (t u : ptuple) (h : ptuple_eq t u = true)
    (hz : ∀ e ∈ t, e.isZero = false) : u = t := by
  induction t generalizing u with
  | nil => cases u <;> simp_all [ptuple_eq]
  | cons g gs ih =>
    cases u with
    | nil => simp [ptuple_eq] at h
    | cons c cs =>
      simp only [ptuple_eq, Bool.and_eq_true] at h
      rw [pelem_eq_exact g c h.1 (hz g (by simp)), ih cs h.2 fun e he => hz e (by simp [he])]

theorem try_take_literal_goal (P : ptuple) (ts : List ptuple) (mem : Mem) (t : ptuple)
    (hP : literalTuple P = true) (ht : t ∈ ts) (hacc : accepts P t = true) :
    ∃ it sel, scan P ts = some it ∧ ts[it]? = some sel ∧ accepts P sel = true ∧
      try_take P ts mem = ⟨some true, ts.eraseIdx it, mem⟩ := by
  rcases try_copytake_cases true P ts mem with ⟨hn, _⟩ | ⟨it, sel, hs, hsel, _, hasel, _, hc⟩
  · have := (scan_eq_none_iff P ts).1 hn t ht
    simp [hacc] at this
  · have hb := bindLoop_literal_goal P sel mem hP
    refine ⟨it, sel, hs, hsel, hasel, ?_⟩
    unfold try_take
    rcases hc with ⟨_, he⟩ | ⟨hf, _⟩
    · rw [he, hb]; simp
    · rw [hb] at hf; simp at hf

/-- C19 as stated fails: after `put(NaN)` on the empty store, `try_take(NaN)`
returns false; and on the store holding `(-0.0)`, `put(+0.0)` followed by
`try_take(+0.0)` removes the stored `(-0.0)` and leaves `(+0.0)`. -/
theorem C19_counterexample :
    (literalTuple [.dbl Double.nan] = true ∧
      (try_take [.dbl Double.nan] (put [.dbl Double.nan] []) Mem.zero).result = some false) ∧
    (literalTuple [.dbl Double.posZero] = true ∧
      (try_take [.dbl Double.posZero] (put [.dbl Double.posZero] [[.dbl Double.negZero]])
        Mem.zero).tuples = [[.dbl Double.posZero]] ∧
      [[pelem.dbl Double.posZero]] ≠ [[pelem.dbl Double.negZero]]) := by
  decide

/-- C19 (amended): for every store `s` and every tuple `t` of Values none of
which is a floating-point NaN, `put(t)` followed by `try_take` with the
all-literal pattern equal to `t` returns true and removes exactly one stored
tuple that `==` finds equal to `t`; when moreover no element of `t` is a
floating-point zero, the store left has the same tuples with the same
multiplicities as `s`. -/
theorem C19_try_take_undoes_put (t : ptuple) (s : List ptuple) (mem : Mem)
    (hlit : literalTuple t = true) (hnan : ∀ e ∈ t, e.isNaN = false) :
    (try_take t (put t s) mem).result = some true ∧
    (∃ it sel, scan t (put t s) = some it ∧ (put t s)[it]? = some sel ∧
      ptuple_eq t sel = true ∧
      (try_take t (put t s) mem).tuples = (put t s).eraseIdx it ∧
      List.Perm (sel :: (try_take t (put t s) mem).tuples) (t :: s)) ∧
    ((∀ e ∈ t, e.isZero = false) →
      List.Perm (try_take t (put t s) mem).tuples s ∧
      ∀ u, (try_take t (put t s) mem).tuples.count u = s.count u) := by
  have hmem : t ∈ put t s := (multiset_insert_perm t s).mem_iff.2 (by simp)
  have hacc : accepts t t = true := by simp [accepts, matchLoop_self t hnan]
  obtain ⟨it, sel, hs, hsel, hasel, he⟩ :=
    try_take_literal_goal t (put t s) mem t hlit hmem hacc
  have heq : ptuple_eq t sel = true := by rw [← accepts_literal_goal t sel hlit]; exact hasel
  have hperm : List.Perm (sel :: (put t s).eraseIdx it) (t :: s) :=
    (perm_cons_eraseIdx (put t s) it sel hsel).symm.trans (multiset_insert_perm t s)
  rw [he]
  refine ⟨rfl, ⟨it, sel, hs, hsel, heq, rfl, hperm⟩, ?_⟩
  intro hz
  have hst : sel = t := ptuple_eq_exact t sel heq hz
  rw [hst] at hperm
  have hp : List.Perm ((put t s).eraseIdx it) s := hperm.cons_inv
  refine ⟨hp, fun u => ?_⟩
  have := hp.countP_eq (· == u)
  simpa [List.count] using this

/-- Witness of C19 (amended): `put(44, "meow")` then `try_take(44, "meow")` on
the store holding the two copies of `(3, 1.2, "meow", 4)`. -/
theorem C19_witness :
    literalTuple tMeow2 = true ∧ (∀ e ∈ tMeow2, e.isNaN = false) ∧
    (∀ e ∈ tMeow2, e.isZero = false) ∧
    (try_take tMeow2 (put tMeow2 [tMeow4, tMeow4]) Mem.zero).result = some true ∧
    List.Perm (try_take tMeow2 (put tMeow2 [tMeow4, tMeow4]) Mem.zero).tuples [tMeow4, tMeow4] ∧
    ∀ u, (try_take tMeow2 (put tMeow2 [tMeow4, tMeow4]) Mem.zero).tuples.count u =
      [tMeow4, tMeow4].count u :=
  ⟨by decide, by decide, by decide,
   (C19_try_take_undoes_put tMeow2 [tMeow4, tMeow4] Mem.zero (by decide) (by decide)).1,
   (C19_try_take_undoes_put tMeow2 [tMeow4, tMeow4] Mem.zero (by decide) (by decide)).2.2
     (by decide)⟩

/-! ## C16 -/

theorem chars_lt_eq_lexLt (a b : List Char) :
    chars_lt a b = lexLt (fun x y => decide (x.toNat < y.toNat)) a b := by
  induction a generalizing b with
  | nil => cases b <;> rfl
  | cons x xs ih => cases b with
    | nil => rfl
    | cons y ys => simp only [chars_lt, lexLt, ih, decide_eq_true_eq]

theorem lexLt_irrefl {α : Type} (lt : α → α → Bool) (G : α → Prop)
    (h1 : ∀ x, G x → lt x x = false) (a : List α) (ha : ∀ x ∈ a, G x) :
    lexLt lt a a = false := by
  induction a with
  | nil => rfl
  | cons x xs ih =>
    simp only [lexLt, h1 x (ha x (by simp)), Bool.false_eq_true, if_false]
    exact ih fun y hy => ha y (by simp [hy])

theorem lexLt_trans {α : Type} (lt : α → α → Bool) (G : α → Prop)
    (h2 : ∀ x y z, G x → G y → G z → lt x y = true → lt y z = true → lt x z = true)
    (h3 : ∀ x y z, G x → G y → G z → lt x y = false → lt y z = false → lt x z = false)
    (a b c : List α) (ha : ∀ x ∈ a, G x) (hb : ∀ x ∈ b, G x) (hc : ∀ x ∈ c, G x)
    (hab : lexLt lt a b = true) (hbc : lexLt lt b c = true) : lexLt lt a c = true := by
  induction a generalizing b c with
  | nil =>
    cases b with
    | nil => simp [lexLt] at hab
    | cons y ys => cases c with
      | nil => simp [lexLt] at hbc
      | cons z zs => rfl
  | cons x xs ih =>
    cases b with
    | nil => simp [lexLt] at hab
    | cons y ys =>
      cases c with
      | nil => simp [lexLt] at hbc
      | cons z zs =>
        have gx := ha x (by simp)
        have gy := hb y (by simp)
        have gz := hc z (by simp)
        simp only [lexLt] at hab hbc ⊢
        cases hxz : lt x z with
        | true => simp
        | false =>
          cases hxy : lt x y with
          | true =>
            cases hyz : lt y z with
            | true =>
              have := h2 x y z gx gy gz hxy hyz
              rw [hxz] at this; exact absurd this (by simp)
            | false =>
              cases hzy : lt z y with
              | true => simp [hyz, hzy] at hbc
              | false =>
                have := h3 x z y gx gz gy hxz hzy
                rw [hxy] at this; exact absurd this (by simp)
          | false =>
            cases hyx : lt y x with
            | true => simp [hxy, hyx] at hab
            | false =>
              simp only [hxy, hyx, Bool.false_eq_true, if_false] at hab
              cases hyz : lt y z with
              | true =>
                have := h3 y x z gy gx gz hyx hxz
                rw [hyz] at this; exact absurd this (by simp)
              | false =>
                cases hzy : lt z y with
                | true => simp [hyz, hzy] at hbc
                | false =>
                  simp only [hyz, hzy, Bool.false_eq_true, if_false] at hbc
                  have hzx : lt z x = false := h3 z y x gz gy gx hzy hyx
                  simp only [hzx, Bool.false_eq_true, if_false]
                  exact ih ys zs (fun w hw => ha w (by simp [hw]))
                    (fun w hw => hb w (by simp [hw])) (fun w hw => hc w (by simp [hw])) hab hbc

theorem lexLt_negtrans {α : Type} (lt : α → α → Bool) (G : α → Prop)
    (h3 : ∀ x y z, G x → G y → G z → lt x y = false → lt y z = false → lt x z = false)
    (a b c : List α) (ha : ∀ x ∈ a, G x) (hb : ∀ x ∈ b, G x) (hc : ∀ x ∈ c, G x)
    (hab : lexLt lt a b = false) (hbc : lexLt lt b c = false) : lexLt lt a c = false := by
  induction a generalizing b c with
  | nil =>
    cases b with
    | nil => exact hbc
    | cons y ys => simp [lexLt] at hab
  | cons x xs ih =>
    cases c with
    | nil => rfl
    | cons z zs =>
      cases b with
      | nil => simp [lexLt] at hbc
      | cons y ys =>
        have gx := ha x (by simp)
        have gy := hb y (by simp)
        have gz := hc z (by simp)
        simp only [lexLt] at hab hbc ⊢
        cases hxy : lt x y with
        | true => simp [hxy] at hab
        | false =>
          cases hyz : lt y z with
          | true => simp [hyz] at hbc
          | false =>
            have hxz := h3 x y z gx gy gz hxy hyz
            simp only [hxy, hyz, hxz, Bool.false_eq_true, if_false] at hab hbc ⊢
            cases hzx : lt z x with
            | true => simp
            | false =>
              simp only [Bool.false_eq_true, if_false]
              cases hyx : lt y x with
              | true =>
                have := h3 y z x gy gz gx hyz hzx
                rw [hyx] at this; exact absurd this (by simp)
              | false =>
                cases hzy : lt z y with
                | true =>
                  have := h3 z x y gz gx gy hzx hxy
                  rw [hzy] at this; exact absurd this (by simp)
                | false =>
                  simp only [hyx, hzy, Bool.false_eq_true, if_false] at hab hbc
                  exact ih ys zs (fun w hw => ha w (by simp [hw]))
                    (fun w hw => hb w (by simp [hw])) (fun w hw => hc w (by simp [hw])) hab hbc

theorem lexLt_antisymm {α : Type} (lt : α → α → Bool) (G : α → Prop)
    (h4 : ∀ x y, G x → G y → lt x y = false → lt y x = false → x = y)
    (a b : List α) (ha : ∀ x ∈ a, G x) (hb : ∀ x ∈ b, G x)
    (hab : lexLt lt a b = false) (hba : lexLt lt b a = false) : a = b := by
  induction a generalizing b with
  | nil =>
    cases b with
    | nil => rfl
    | cons y ys => simp [lexLt] at hab
  | cons x xs ih =>
    cases b with
    | nil => simp [lexLt] at hba
    | cons y ys =>
      simp only [lexLt] at hab hba
      cases hxy : lt x y with
      | true => simp [hxy] at hab
      | false =>
        cases hyx : lt y x with
        | true => simp [hyx] at hba
        | false =>
          simp only [hxy, hyx, Bool.false_eq_true, if_false] at hab hba
          rw [h4 x y (ha x (by simp)) (hb y (by simp)) hxy hyx,
            ih ys (fun w hw => ha w (by simp [hw])) (fun w hw => hb w (by simp [hw])) hab hba]

theorem chars_lt_irrefl (a : List Char) : chars_lt a a = false := by
  rw [chars_lt_eq_lexLt]
  exact lexLt_irrefl _ (fun _ => True) (fun x _ => by simp) a (fun _ _ => trivial)

theorem chars_lt_trans (a b c : List Char) (hab : chars_lt a b = true)
    (hbc : chars_lt b c = true) : chars_lt a c = true := by
  rw [chars_lt_eq_lexLt] at hab hbc ⊢
  refine lexLt_trans _ (fun _ => True) ?_ ?_ a b c (fun _ _ => trivial) (fun _ _ => trivial)
    (fun _ _ => trivial) hab hbc
  · intro x y z _ _ _ h1 h2
    simp only [decide_eq_true_eq] at h1 h2 ⊢
    omega
  · intro x y z _ _ _ h1 h2
    simp only [decide_eq_false_iff_not] at h1 h2 ⊢
    omega

theorem chars_lt_negtrans (a b c : List Char) (hab : chars_lt a b = false)
    (hbc : chars_lt b c = false) : chars_lt a c = false := by
  rw [chars_lt_eq_lexLt] at hab hbc ⊢
  refine lexLt_negtrans _ (fun _ => True) ?_ a b c (fun _ _ => trivial) (fun _ _ => trivial)
    (fun _ _ => trivial) hab hbc
  intro x y z _ _ _ h1 h2
  simp only [decide_eq_false_iff_not] at h1 h2 ⊢
  omega

theorem chars_lt_antisymm (a b : List Char) (hab : chars_lt a b = false)
    (hba : chars_lt b a = false) : a = b := by
  rw [chars_lt_eq_lexLt] at hab hba
  refine lexLt_antisymm _ (fun _ => True) ?_ a b (fun _ _ => trivial) (fun _ _ => trivial) hab hba
  intro x y _ _ h1 h2
  simp only [decide_eq_false_iff_not] at h1 h2
  have h : x.val.toNat = y.val.toNat := by
    simp only [Char.toNat] at h1 h2
    omega
  exact Char.ext (UInt32.ext h)

theorem Double.lt_irrefl (a : Double) : a.lt a = false := by
  simp [Double.lt]

theorem Double.lt_trans (a b c : Double) (hab : a.lt b = true) (hbc : b.lt c = true) :
    a.lt c = true := by
  simp only [Double.lt, Bool.and_eq_true, Bool.not_eq_true', decide_eq_true_eq] at hab hbc ⊢
  exact ⟨⟨hab.1.1, hbc.1.2⟩, by omega⟩

theorem Double.lt_negtrans (a b c : Double) (ha : a.isNaN = false) (hb : b.isNaN = false)
    (hc : c.isNaN = false) (hab : a.lt b = false) (hbc : b.lt c = false) : a.lt c = false := by
  simp only [Double.lt, ha, hb, hc, Bool.not_false, Bool.true_and, decide_eq_false_iff_not]
    at hab hbc ⊢
  omega

theorem Double.key_inj (a b : Double) (ha : a.isNegZero = false) (hb : b.isNegZero = false)
    (h : a.key = b.key) : a = b := by
  obtain ⟨s1, e1, f1⟩ := a
  obtain ⟨s2, e2, f2⟩ := b
  have he1 := e1.isLt
  have hf1 := f1.isLt
  have he2 := e2.isLt
  have hf2 := f2.isLt
  simp only [Double.key, Double.isNegZero, Double.isZero, Bool.and_eq_false_iff,
    beq_eq_false_iff_ne, ne_eq, Bool.and_eq_true, beq_iff_eq] at h ha hb
  have hfields : e1.val = e2.val ∧ f1.val = f2.val ∧ s1 = s2 := by
    cases s1 <;> cases s2 <;> simp at h ha hb <;> refine ⟨?_, ?_, ?_⟩ <;> first | rfl | omega
  obtain ⟨h1, h2, h3⟩ := hfields
  have e12 : e1 = e2 := Fin.ext h1
  have f12 : f1 = f2 := Fin.ext h2
  subst e12; subst f12; subst h3
  rfl

theorem Double.lt_antisymm (a b : Double) (ha : a.isNaN = false) (hb : b.isNaN = false)
    (ha0 : a.isNegZero = false) (hb0 : b.isNegZero = false)
    (hab : a.lt b = false) (hba : b.lt a = false) : a = b := by
  simp only [Double.lt, ha, hb, Bool.not_false, Bool.true_and, decide_eq_false_iff_not]
    at hab hba
  exact Double.key_inj a b ha0 hb0 (by omega)

theorem pelem_lt_irrefl (a : pelem) : a.lt a = false := by
  cases a <;> simp [pelem.lt, Double.lt_irrefl, chars_lt_irrefl]

theorem pelem_lt_trans (a b c : pelem) (hab : a.lt b = true) (hbc : b.lt c = true) :
    a.lt c = true := by
  cases a <;> cases b <;> cases c <;>
    simp only [pelem.lt, pelem.index, Nat.lt_irrefl, if_false, if_true, Nat.reduceLT,
      decide_eq_true_eq, Bool.false_eq_true] at hab hbc ⊢ <;>
    first
    | omega
    | exact Double.lt_trans _ _ _ hab hbc
    | exact chars_lt_trans _ _ _ hab hbc

theorem pelem_lt_negtrans (a b c : pelem) (ha : a.isNaN = false) (hb : b.isNaN = false)
    (hc : c.isNaN = false) (hab : a.lt b = false) (hbc : b.lt c = false) :
    a.lt c = false := by
  cases a <;> cases b <;> cases c <;>
    simp only [pelem.lt, pelem.index, Nat.lt_irrefl, if_false, if_true, Nat.reduceLT,
      decide_eq_false_iff_not, Bool.true_eq_false, pelem.isNaN] at hab hbc ha hb hc ⊢ <;>
    first
    | omega
    | exact Double.lt_negtrans _ _ _ ha hb hc hab hbc
    | exact chars_lt_negtrans _ _ _ hab hbc

theorem pelem_lt_antisymm (a b : pelem) (ha : a.isNaN = false) (hb : b.isNaN = false)
    (ha0 : a.isNegZero = false) (hb0 : b.isNegZero = false)
    (hab : a.lt b = false) (hba : b.lt a = false) : a = b := by
  cases a <;> cases b <;>
    simp only [pelem.lt, pelem.index, Nat.lt_irrefl, if_false, if_true, Nat.reduceLT,
      decide_eq_false_iff_not, Bool.true_eq_false, pelem.isNaN, pelem.isNegZero]
      at hab hba ha hb ha0 hb0 <;>
    first
    | (congr 1; omega)
    | (congr 1; exact Double.lt_antisymm _ _ ha hb ha0 hb0 hab hba)
    | (congr 1; exact String.ext (chars_lt_antisymm _ _ hab hba))

theorem Double.eq_iff_incomparable (a b : Double) (ha : a.isNaN = false)
    (hb : b.isNaN = false) : a.eq b = (!a.lt b && !b.lt a) := by
  rw [Bool.eq_iff_iff]
  simp only [Double.eq, Double.lt, ha, hb, Bool.not_false, Bool.true_and, beq_iff_eq,
    Bool.and_eq_true, Bool.not_eq_true', decide_eq_false_iff_not]
  omega

theorem String.beq_iff_incomparable (x y : String) :
    (x == y) = (!chars_lt x.data y.data && !chars_lt y.data x.data) := by
  rw [Bool.eq_iff_iff]
  simp only [beq_iff_eq, Bool.and_eq_true, Bool.not_eq_true']
  constructor
  · rintro rfl
    exact ⟨chars_lt_irrefl _, chars_lt_irrefl _⟩
  · rintro ⟨h1, h2⟩
    exact String.ext (chars_lt_antisymm _ _ h1 h2)

theorem pelem_eq_iff_incomparable (a b : pelem) (ha : a.isNaN = false) (hb : b.isNaN = false) :
    a.eq b = (!a.lt b && !b.lt a) := by
  cases a <;> cases b <;>
    simp only [pelem.eq, pelem.lt, pelem.index, pelem.isNaN, Nat.lt_irrefl, if_false, if_true,
      Nat.reduceLT, Bool.not_true, Bool.not_false, Bool.and_false, Bool.false_and,
      Bool.and_self] at ha hb ⊢ <;>
    first
    | exact Double.eq_iff_incomparable _ _ ha hb
    | exact String.beq_iff_incomparable _ _
    | (rw [Bool.eq_iff_iff]
       simp only [beq_iff_eq, Bool.and_eq_true, Bool.not_eq_true', decide_eq_false_iff_not]
       omega)

theorem ptuple_lt_eq_lexLt (a b : ptuple) (ha : ∀ e ∈ a, pelem.isNaN e = false)
    (hb : ∀ e ∈ b, pelem.isNaN e = false) : ptuple_lt a b = lexLt pelem.lt a b := by
  induction a generalizing b with
  | nil => cases b <;> rfl
  | cons x xs ih => cases b with
    | nil => rfl
    | cons y ys =>
      have hxy := pelem_eq_iff_incomparable x y (ha x (by simp)) (hb y (by simp))
      have hrec := ih ys (fun e he => ha e (by simp [he])) (fun e he => hb e (by simp [he]))
      simp only [ptuple_lt, lexLt, hxy, hrec]
      cases x.lt y <;> cases y.lt x <;> simp

theorem ptuple_lt_irrefl (a : ptuple) : ptuple_lt a a = false := by
  induction a with
  | nil => rfl
  | cons x xs ih =>
    simp only [ptuple_lt, pelem_lt_irrefl, Bool.false_eq_true, if_false, ih]
    cases x.eq x <;> simp

theorem ptuple_lt_negtrans (a b c : ptuple) (ha : ∀ e ∈ a, pelem.isNaN e = false)
    (hb : ∀ e ∈ b, pelem.isNaN e = false) (hc : ∀ e ∈ c, pelem.isNaN e = false)
    (hab : ptuple_lt a b = false) (hbc : ptuple_lt b c = false) : ptuple_lt a c = false := by
  rw [ptuple_lt_eq_lexLt a b ha hb] at hab
  rw [ptuple_lt_eq_lexLt b c hb hc] at hbc
  rw [ptuple_lt_eq_lexLt a c ha hc]
  exact lexLt_negtrans _ (fun e => pelem.isNaN e = false)
    (fun x y z gx gy gz h1 h2 => pelem_lt_negtrans x y z gx gy gz h1 h2) a b c ha hb hc hab hbc

theorem ptuple_le_of_not_lt (a b : ptuple) (ha : ∀ e ∈ a, pelem.isNaN e = false)
    (hb : ∀ e ∈ b, pelem.isNaN e = false) (h : ptuple_lt b a = false) :
    ptuple_lt a b = true ∨ ptuple_eq a b = true := by
  induction a generalizing b with
  | nil =>
    cases b with
    | nil => right; rfl
    | cons y ys => left; rfl
  | cons x xs ih =>
    cases b with
    | nil => simp [ptuple_lt] at h
    | cons y ys =>
      have hxy := pelem_eq_iff_incomparable x y (ha x (by simp)) (hb y (by simp))
      have hyx := pelem_eq_iff_incomparable y x (hb y (by simp)) (ha x (by simp))
      simp only [ptuple_lt, ptuple_eq, hxy, hyx] at h ⊢
      cases h1 : x.lt y with
      | true => left; simp
      | false =>
        cases h2 : y.lt x with
        | true => simp [h1, h2] at h
        | false =>
          simp only [h1, h2, Bool.false_eq_true, if_false, Bool.not_false, Bool.and_self,
            if_true, Bool.true_and] at h ⊢
          exact ih ys (fun e he => ha e (by simp [he])) (fun e he => hb e (by simp [he])) h

theorem ptuple_lt_trans (a b c : ptuple) (ha : ∀ e ∈ a, pelem.isNaN e = false)
    (hb : ∀ e ∈ b, pelem.isNaN e = false) (hc : ∀ e ∈ c, pelem.isNaN e = false)
    (hab : ptuple_lt a b = true) (hbc : ptuple_lt b c = true) : ptuple_lt a c = true := by
  rw [ptuple_lt_eq_lexLt a b ha hb] at hab
  rw [ptuple_lt_eq_lexLt b c hb hc] at hbc
  rw [ptuple_lt_eq_lexLt a c ha hc]
  exact lexLt_trans _ (fun e => pelem.isNaN e = false)
    (fun x y z _ _ _ h1 h2 => pelem_lt_trans x y z h1 h2)
    (fun x y z gx gy gz h1 h2 => pelem_lt_negtrans x y z gx gy gz h1 h2) a b c ha hb hc hab hbc

theorem ptuple_lt_antisymm (a b : ptuple)
    (ha : ∀ e ∈ a, pelem.isNaN e = false ∧ pelem.isNegZero e = false)
    (hb : ∀ e ∈ b, pelem.isNaN e = false ∧ pelem.isNegZero e = false)
    (hab : ptuple_lt a b = false) (hba : ptuple_lt b a = false) : a = b := by
  rw [ptuple_lt_eq_lexLt a b (fun e he => (ha e he).1) (fun e he => (hb e he).1)] at hab
  rw [ptuple_lt_eq_lexLt b a (fun e he => (hb e he).1) (fun e he => (ha e he).1)] at hba
  exact lexLt_antisymm _ (fun e => pelem.isNaN e = false ∧ pelem.isNegZero e = false)
    (fun x y gx gy h1 h2 => pelem_lt_antisymm x y gx.1 gy.1 gx.2 gy.2 h1 h2) a b ha hb hab hba

theorem mem_multiset_insert (v u : ptuple) (xs : List ptuple) :
    u ∈ multiset_insert v xs ↔ u = v ∨ u ∈ xs := by
  rw [(multiset_insert_perm v xs).mem_iff, List.mem_cons]

theorem sortedStore_insert (v : ptuple) (xs : List ptuple)
    (hv : ∀ e ∈ v, pelem.isNaN e = false) (hxs : NoNaNStore xs) (hs : SortedStore xs) :
    SortedStore (multiset_insert v xs) := by
  induction xs with
  | nil => simp [multiset_insert, SortedStore]
  | cons x xs ih =>
    have hx : ∀ e ∈ x, pelem.isNaN e = false := hxs x (by simp)
    have hrest : NoNaNStore xs := fun t ht => hxs t (by simp [ht])
    unfold SortedStore at hs ih ⊢
    rw [List.pairwise_cons] at hs
    unfold multiset_insert
    split
    · rename_i hlt
      rw [List.pairwise_cons]
      refine ⟨?_, List.pairwise_cons.2 hs⟩
      intro y hy
      cases hyv : ptuple_lt y v with
      | false => rfl
      | true =>
        have hyn : ∀ e ∈ y, pelem.isNaN e = false := hxs y hy
        have hyx := ptuple_lt_trans y v x hyn hv hx hyv hlt
        rcases List.mem_cons.1 hy with rfl | hmem
        · rw [ptuple_lt_irrefl] at hyx; exact absurd hyx (by simp)
        · rw [hs.1 y hmem] at hyx; exact absurd hyx (by simp)
    · rename_i hlt
      rw [List.pairwise_cons]
      refine ⟨?_, ih hrest hs.2⟩
      intro y hy
      rcases (mem_multiset_insert v y xs).1 hy with rfl | hmem
      · simpa using hlt
      · exact hs.1 y hmem

theorem try_copytake_tuples_sublist (remove : Bool) (P : ptuple) (s : List ptuple) (mem : Mem) :
    List.Sublist (try_copytake remove P s mem).tuples s := by
  rcases try_copytake_cases remove P s mem with ⟨_, he⟩ | ⟨it, sel, _, _, _, _, _, hc⟩
  · rw [he]
  · rcases hc with ⟨_, he⟩ | ⟨_, he⟩
    · rw [he]
      cases remove with
      | true => simpa using List.eraseIdx_sublist s it
      | false => simp
    · rw [he]

theorem reachable_invariant (s : List ptuple) (h : Reachable s) :
    LiteralStore s ∧ NoNaNStore s ∧ SortedStore s := by
  induction h with
  | empty =>
    refine ⟨fun t ht => ?_, fun t ht => ?_, ?_⟩
    · simp at ht
    · simp at ht
    · simp [SortedStore]
  | put t s ht hn _ ih =>
    obtain ⟨h1, h2, h3⟩ := ih
    refine ⟨literalStore_put t s ht h1, ?_, sortedStore_insert t s hn h2 h3⟩
    intro u hu
    rcases (mem_multiset_insert t u s).1 hu with rfl | hmem
    · exact hn
    · exact h2 u hmem
  | retrieve remove P s mem _ ih =>
    obtain ⟨h1, h2, h3⟩ := ih
    have hsub := try_copytake_tuples_sublist remove P s mem
    exact ⟨fun t ht => h1 t (hsub.subset ht), fun t ht => h2 t (hsub.subset ht),
      List.Pairwise.sublist hsub h3⟩

theorem scan_least (P : ptuple) (ts : List ptuple) (it : Nat) (sel : ptuple)
    (hsorted : SortedStore ts) (hs : scan P ts = some it) (hsel : ts[it]? = some sel)
    (u : ptuple) (hu : u ∈ ts) (hacc : accepts P u = true) : ptuple_lt u sel = false := by
  induction ts generalizing it with
  | nil => simp at hu
  | cons c rest ih =>
    unfold SortedStore at hsorted ih
    rw [List.pairwise_cons] at hsorted
    by_cases hc : accepts P c = true
    · simp only [scan, hc, if_true, Option.some.injEq] at hs
      subst hs
      simp only [List.getElem?_cons_zero, Option.some.injEq] at hsel
      subst hsel
      rcases List.mem_cons.1 hu with rfl | hmem
      · exact ptuple_lt_irrefl u
      · exact hsorted.1 u hmem
    · simp only [Bool.not_eq_true] at hc
      simp only [scan, hc, Bool.false_eq_true, if_false, Option.map_eq_some'] at hs
      obtain ⟨k, hk, rfl⟩ := hs
      simp only [List.getElem?_cons_succ] at hsel
      rcases List.mem_cons.1 hu with rfl | hmem
      · rw [hc] at hacc; exact absurd hacc (by simp)
      · exact ih k hsorted.2 hk hsel hmem

/-! ## C17 -/

theorem pelem_lt_eq_valueLt (a b : pelem) (va vb : elem) (ha : a.value? = some va)
    (hb : b.value? = some vb) : a.lt b = Spec.valueLt va vb := by
  cases a <;> cases b <;> simp only [pelem.value?, Option.some.injEq, reduceCtorEq] at ha hb <;>
    subst ha <;> subst hb <;>
    simp [pelem.lt, pelem.index, Spec.valueLt, Spec.kindRank, Spec.kindOf]

theorem lexLt_eq_tupleLt (t u : ptuple) (ht : literalTuple t = true)
    (hu : literalTuple u = true) : lexLt pelem.lt t u = Spec.tupleLt (values t) (values u) := by
  induction t generalizing u with
  | nil =>
    cases u with
    | nil => rfl
    | cons b bs =>
      simp only [literalTuple, List.all_cons, Bool.and_eq_true, Bool.not_eq_true'] at hu
      cases b <;> simp [pelem.isPointer] at hu <;>
        simp [lexLt, values, pelem.value?, Spec.tupleLt]
  | cons a as ih =>
    simp only [literalTuple, List.all_cons, Bool.and_eq_true, Bool.not_eq_true'] at ht
    obtain ⟨va, hva⟩ : ∃ va, a.value? = some va := by
      cases a <;> simp [pelem.isPointer] at ht <;> simp [pelem.value?]
    cases u with
    | nil => simp [lexLt, values, hva, Spec.tupleLt]
    | cons b bs =>
      simp only [literalTuple, List.all_cons, Bool.and_eq_true, Bool.not_eq_true'] at hu
      obtain ⟨vb, hvb⟩ : ∃ vb, b.value? = some vb := by
        cases b <;> simp [pelem.isPointer] at hu <;> simp [pelem.value?]
      have h1 := pelem_lt_eq_valueLt a b va vb hva hvb
      have h2 := pelem_lt_eq_valueLt b a vb va hvb hva
      have h3 := ih bs ht.2 hu.2
      simp only [values] at h3
      simp only [lexLt, values, List.filterMap_cons, hva, hvb, Spec.tupleLt, h1, h2, h3]

theorem ptuple_lt_eq_tupleLt (t u : ptuple) (ht : literalTuple t = true)
    (hu : literalTuple u = true) (hnt : ∀ e ∈ t, pelem.isNaN e = false)
    (hnu : ∀ e ∈ u, pelem.isNaN e = false) :
    ptuple_lt t u = Spec.tupleLt (values t) (values u) := by
  rw [ptuple_lt_eq_lexLt t u hnt hnu]
  exact lexLt_eq_tupleLt t u ht hu

theorem eq_of_perm_of_sorted (s1 s2 : List ptuple) (hp : List.Perm s1 s2)
    (h1 : SortedStore s1) (h2 : SortedStore s2) (n1 : NoNaNStore s1) (n2 : NoNaNStore s2)
    (z1 : NoNegZeroStore s1) (z2 : NoNegZeroStore s2) : s1 = s2 := by
  refine List.Perm.eq_of_sorted ?_ h1 h2 hp
  intro a b ha hb hab hba
  exact ptuple_lt_antisymm a b (fun e he => ⟨n1 a ha e he, z1 a ha e he⟩)
    (fun e he => ⟨n2 b hb e he, z2 b hb e he⟩) hba hab

theorem strictWeakOn_of_noNaN (l : List ptuple) (h : NoNaNStore l) :
    strictWeakOn l = true := by
  simp only [strictWeakOn, incomparable, List.all_eq_true, Bool.and_eq_true, Bool.or_eq_true,
    Bool.not_eq_true']
  intro a ha
  refine ⟨ptuple_lt_irrefl a, ?_⟩
  intro b hb c hc
  have na := h a ha
  have nb := h b hb
  have nc := h c hc
  constructor
  · cases hab : ptuple_lt a b with
    | false => left; simp
    | true =>
      cases hbc : ptuple_lt b c with
      | false => left; simp
      | true => right; exact ptuple_lt_trans a b c na nb nc hab hbc
  · cases hab : ptuple_lt a b with
    | true => left; simp
    | false =>
      cases hba : ptuple_lt b a with
      | true => left; simp
      | false =>
        cases hbc : ptuple_lt b c with
        | true => left; simp
        | false =>
          cases hcb : ptuple_lt c b with
          | true => left; simp
          | false =>
            right
            exact ⟨ptuple_lt_negtrans a b c na nb nc hab hbc,
              ptuple_lt_negtrans c b a nc nb na hcb hba⟩

theorem insertSpecified_of_reachable (t : ptuple) (s : List ptuple) (hs : Reachable s)
    (ht : ∀ e ∈ t, pelem.isNaN e = false) : InsertSpecified t s := by
  obtain ⟨_, hn, hsorted⟩ := reachable_invariant s hs
  refine ⟨hsorted, strictWeakOn_of_noNaN (t :: s) ?_⟩
  intro u hu
  rcases List.mem_cons.1 hu with rfl | hmem
  · exact ht
  · exact hn u hmem

/-- C17 as stated fails, on stores every `put` of which is one whose place C++
specifies. The stores `[(+0.0), (-0.0)]` and `[(-0.0), (+0.0)]`, got by the two
orders of the same two `put`s, have the same contents, yet `try_copy(&d)`
selects `(+0.0)` in the first and `(-0.0)` in the second. After `put(NaN)`,
`put(1.0)` the store is `[(NaN), (1.0)]` and `try_copy(&d)` selects `(NaN)`,
which is neither less than nor equal to the satisfying tuple `(1.0)`, so it is
not the least; after the same two `put`s in the other order the contents are
the same and `(1.0)` is selected. -/
theorem C17_counterexample :
    (InsertSpecified [.dbl Double.posZero] [] ∧
      InsertSpecified [.dbl Double.negZero] (put [.dbl Double.posZero] []) ∧
      InsertSpecified [.dbl Double.negZero] [] ∧
      InsertSpecified [.dbl Double.posZero] (put [.dbl Double.negZero] []) ∧
      List.Perm (put [.dbl Double.negZero] (put [.dbl Double.posZero] []))
        (put [.dbl Double.posZero] (put [.dbl Double.negZero] [])) ∧
      selected [.dblp 0] (put [.dbl Double.negZero] (put [.dbl Double.posZero] [])) =
        some [.dbl Double.posZero] ∧
      selected [.dblp 0] (put [.dbl Double.posZero] (put [.dbl Double.negZero] [])) =
        some [.dbl Double.negZero]) ∧
    (InsertSpecified [.dbl Double.nan] [] ∧
      InsertSpecified [.dbl Double.d1_0] (put [.dbl Double.nan] []) ∧
      put [.dbl Double.d1_0] (put [.dbl Double.nan] []) =
        [[.dbl Double.nan], [.dbl Double.d1_0]] ∧
      selected [.dblp 0] (put [.dbl Double.d1_0] (put [.dbl Double.nan] [])) =
        some [.dbl Double.nan] ∧
      Spec.satisfies [.dblp 0] [.dbl Double.d1_0] = true ∧
      ptuple_lt [.dbl Double.nan] [.dbl Double.d1_0] = false ∧
      ptuple_eq [.dbl Double.nan] [.dbl Double.d1_0] = false ∧
      InsertSpecified [.dbl Double.d1_0] [] ∧
      InsertSpecified [.dbl Double.nan] (put [.dbl Double.d1_0] []) ∧
      List.Perm (put [.dbl Double.d1_0] (put [.dbl Double.nan] []))
        (put [.dbl Double.nan] (put [.dbl Double.d1_0] [])) ∧
      selected [.dblp 0] (put [.dbl Double.nan] (put [.dbl Double.d1_0] [])) =
        some [.dbl Double.d1_0]) := by
  decide

/-- C17 (amended): for every store reachable by `put` of tuples of Values none
of which is a floating-point NaN (and by retrievals), and every pattern `P`
with at least one satisfying tuple, the tuple selected by `try_copy(P)` /
`try_take(P)` is the first satisfying tuple in the store's order, and it is
the least satisfying tuple (no satisfying tuple is less than it, and it is
less than or compares equal to every satisfying tuple) under the
lexicographic order on tuples that compares elements first by kind rank
(integer, floating-point, text), then by value, and puts a proper initial
segment before its extensions; the selection is the same for `try_copy` and
`try_take` and for every caller memory, and, when no stored value is a
negative zero, it is a function of the store's contents and `P` only. Every
`put` of such a tuple into such a store is one whose place C++ specifies. -/
theorem C17_selected_is_first_and_least (P : ptuple) (tuples : List ptuple)
    (hreach : Reachable tuples) (hex : ∃ t ∈ tuples, Spec.satisfies P t = true) :
    ∃ it sel, scan P tuples = some it ∧ tuples[it]? = some sel ∧
      Spec.satisfies P sel = true ∧
      (∀ j u, j < it → tuples[j]? = some u → Spec.satisfies P u = false) ∧
      (∀ u ∈ tuples, Spec.satisfies P u = true → ptuple_lt u sel = false) ∧
      (∀ u ∈ tuples, Spec.satisfies P u = true →
        ptuple_lt sel u = true ∨ ptuple_eq sel u = true) ∧
      (∀ u ∈ tuples, ptuple_lt u sel = Spec.tupleLt (values u) (values sel) ∧
        ptuple_lt sel u = Spec.tupleLt (values sel) (values u)) ∧
      (∀ remove mem, try_copytake remove P tuples mem =
        ⟨some true, if remove then tuples.eraseIdx it else tuples, (bindLoop P sel mem).1⟩) ∧
      (NoNegZeroStore tuples → ∀ tuples2, Reachable tuples2 → NoNegZeroStore tuples2 →
        List.Perm tuples tuples2 → selected P tuples2 = some sel) ∧
      (∀ t, (∀ e ∈ t, pelem.isNaN e = false) → InsertSpecified t tuples) := by
  obtain ⟨hlit, hnan, hsorted⟩ := reachable_invariant tuples hreach
  obtain ⟨it, sel, hs, hsel, hmem, hsat, _, _⟩ :=
    try_copytake_true_of_satisfied false P tuples Mem.zero hlit hex
  obtain ⟨_, _, _, hbefore⟩ := scan_eq_some P tuples it hs
  have hleast : ∀ u ∈ tuples, Spec.satisfies P u = true → ptuple_lt u sel = false := by
    intro u hu husat
    rw [← accepts_eq_satisfies P u (hlit u hu)] at husat
    exact scan_least P tuples it sel hsorted hs hsel u hu husat
  refine ⟨it, sel, hs, hsel, hsat, ?_, hleast, ?_, ?_, ?_, ?_, ?_⟩
  · intro j u hj hu
    rw [← accepts_eq_satisfies P u (hlit u (mem_of_getElem?_eq_some tuples j u hu))]
    exact hbefore j u hj hu
  · intro u hu husat
    exact ptuple_le_of_not_lt sel u (hnan sel hmem) (hnan u hu) (hleast u hu husat)
  · intro u hu
    exact ⟨ptuple_lt_eq_tupleLt u sel (hlit u hu) (hlit sel hmem) (hnan u hu) (hnan sel hmem),
      ptuple_lt_eq_tupleLt sel u (hlit sel hmem) (hlit u hu) (hnan sel hmem) (hnan u hu)⟩
  · intro remove mem
    obtain ⟨it2, sel2, hs2, hsel2, _, _, _, he2⟩ :=
      try_copytake_true_of_satisfied remove P tuples mem hlit hex
    have hit : it2 = it := by
      rw [hs] at hs2
      exact (Option.some.inj hs2).symm
    subst hit
    have hsl : sel2 = sel := by
      rw [hsel] at hsel2
      exact (Option.some.inj hsel2).symm
    subst hsl
    exact he2
  · intro hz tuples2 hreach2 hz2 hperm
    obtain ⟨_, hnan2, hsorted2⟩ := reachable_invariant tuples2 hreach2
    have heq := eq_of_perm_of_sorted tuples tuples2 hperm hsorted hsorted2 hnan hnan2 hz hz2
    rw [← heq]
    simp [selected, hs, hsel]
  · intro t ht
    exact insertSpecified_of_reachable t tuples hreach ht

/-- Witness of C17 (amended): the store of `src/test.cpp` and the pattern
`(&p, 1.2, "meow", 4)`. -/
theorem C17_witness :
    Reachable testStore ∧
    (∃ t ∈ testStore, Spec.satisfies [.intp 0, .dbl Double.d1_2, .str "meow", .int 4] t = true) ∧
    ∃ it sel, scan [.intp 0, .dbl Double.d1_2, .str "meow", .int 4] testStore = some it ∧
      testStore[it]? = some sel ∧
      Spec.satisfies [.intp 0, .dbl Double.d1_2, .str "meow", .int 4] sel = true ∧
      (∀ u ∈ testStore, Spec.satisfies [.intp 0, .dbl Double.d1_2, .str "meow", .int 4] u = true →
        ptuple_lt u sel = false) ∧
      (∀ u ∈ testStore, Spec.satisfies [.intp 0, .dbl Double.d1_2, .str "meow", .int 4] u = true →
        ptuple_lt sel u = true ∨ ptuple_eq sel u = true) := by
  have hr : Reachable testStore :=
    Reachable.put tMeow2 _ (by decide) (by decide)
      (Reachable.put tMeow4 _ (by decide) (by decide)
        (Reachable.put tMeow4 _ (by decide) (by decide) Reachable.empty))
  refine ⟨hr, ⟨tMeow4, by decide, by decide⟩, ?_⟩
  obtain ⟨it, sel, h1, h2, h3, _, h5, h6, _⟩ :=
    C17_selected_is_first_and_least [.intp 0, .dbl Double.d1_2, .str "meow", .int 4] testStore hr
      ⟨tMeow4, by decide, by decide⟩
  exact ⟨it, sel, h1, h2, h3, h5, h6⟩

/-! ## C20 -/

theorem putAll_perm (ts : List ptuple) (s : List ptuple) :
    List.Perm (putAll ts s) (ts ++ s) := by
  induction ts generalizing s with
  | nil => simp [putAll]
  | cons t ts ih =>
    simp only [putAll, List.cons_append]
    exact (ih (put t s)).trans
      (((multiset_insert_perm t s).append_left ts).trans List.perm_middle)

theorem putAll_reachable (ts : List ptuple) (s : List ptuple) (hs : Reachable s)
    (hts : ∀ t ∈ ts, literalTuple t = true ∧ ∀ e ∈ t, pelem.isNaN e = false) :
    Reachable (putAll ts s) := by
  induction ts generalizing s with
  | nil => exact hs
  | cons t ts ih =>
    have ht := hts t (by simp)
    exact ih (put t s) (Reachable.put t s ht.1 ht.2 hs) fun u hu => hts u (by simp [hu])

theorem putAll_noNegZero (ts : List ptuple) (s : List ptuple) (hs : NoNegZeroStore s)
    (hts : ∀ t ∈ ts, ∀ e ∈ t, pelem.isNegZero e = false) : NoNegZeroStore (putAll ts s) := by
  intro u hu
  have hmem : u ∈ ts ++ s := (putAll_perm ts s).mem_iff.1 hu
  rcases List.mem_append.1 hmem with h | h
  · exact hts u h
  · exact hs u h

theorem putAll_eq_of_perm (s : List ptuple) (hs : Reachable s) (hz : NoNegZeroStore s)
    (as bs : List ptuple) (hperm : List.Perm as bs)
    (has : ∀ t ∈ as, literalTuple t = true ∧
      ∀ e ∈ t, pelem.isNaN e = false ∧ pelem.isNegZero e = false) :
    putAll as s = putAll bs s := by
  have hbs : ∀ t ∈ bs, literalTuple t = true ∧
      ∀ e ∈ t, pelem.isNaN e = false ∧ pelem.isNegZero e = false :=
    fun t ht => has t (hperm.mem_iff.2 ht)
  have ra := putAll_reachable as s hs fun t ht => ⟨(has t ht).1, fun e he => ((has t ht).2 e he).1⟩
  have rb := putAll_reachable bs s hs fun t ht => ⟨(hbs t ht).1, fun e he => ((hbs t ht).2 e he).1⟩
  have za := putAll_noNegZero as s hz fun t ht e he => ((has t ht).2 e he).2
  have zb := putAll_noNegZero bs s hz fun t ht e he => ((hbs t ht).2 e he).2
  obtain ⟨_, na, sa⟩ := reachable_invariant _ ra
  obtain ⟨_, nb, sb⟩ := reachable_invariant _ rb
  have hp : List.Perm (putAll as s) (putAll bs s) :=
    (putAll_perm as s).trans ((hperm.append_right s).trans (putAll_perm bs s).symm)
  exact eq_of_perm_of_sorted _ _ hp sa sb na nb za zb

/-- C20 as stated fails, with every `put` one whose place C++ specifies:
`put(+0.0)` then `put(-0.0)` leaves `(+0.0)` first in the store and the
opposite order leaves `(-0.0)` first, so `try_copy(&d)` binds `+0.0` after the
one and `-0.0` after the other; and `put(NaN)` then `put(1.0)` leaves `(NaN)`
first and the opposite order leaves `(1.0)` first (neither tuple is less than
the other, so the multiset keeps them in insertion order), so `try_copy(&d)`
binds a NaN after the one and `1.0` after the other. -/
theorem C20_counterexample :
    (List.Perm [[pelem.dbl Double.posZero], [pelem.dbl Double.negZero]]
        [[pelem.dbl Double.negZero], [pelem.dbl Double.posZero]] ∧
      InsertSpecified [.dbl Double.posZero] [] ∧
      InsertSpecified [.dbl Double.negZero] (put [.dbl Double.posZero] []) ∧
      InsertSpecified [.dbl Double.negZero] [] ∧
      InsertSpecified [.dbl Double.posZero] (put [.dbl Double.negZero] []) ∧
      (try_copy [.dblp 0] (putAll [[.dbl Double.posZero], [.dbl Double.negZero]] [])
        Mem.zero).mem.dbls 0 = Double.posZero ∧
      (try_copy [.dblp 0] (putAll [[.dbl Double.negZero], [.dbl Double.posZero]] [])
        Mem.zero).mem.dbls 0 = Double.negZero ∧
      Double.posZero ≠ Double.negZero) ∧
    (List.Perm [[pelem.dbl Double.nan], [pelem.dbl Double.d1_0]]
        [[pelem.dbl Double.d1_0], [pelem.dbl Double.nan]] ∧
      InsertSpecified [.dbl Double.nan] [] ∧
      InsertSpecified [.dbl Double.d1_0] (put [.dbl Double.nan] []) ∧
      InsertSpecified [.dbl Double.d1_0] [] ∧
      InsertSpecified [.dbl Double.nan] (put [.dbl Double.d1_0] []) ∧
      putAll [[.dbl Double.nan], [.dbl Double.d1_0]] [] =
        [[.dbl Double.nan], [.dbl Double.d1_0]] ∧
      putAll [[.dbl Double.d1_0], [.dbl Double.nan]] [] =
        [[.dbl Double.d1_0], [.dbl Double.nan]] ∧
      (try_copy [.dblp 0] (putAll [[.dbl Double.nan], [.dbl Double.d1_0]] [])
        Mem.zero).mem.dbls 0 = Double.nan ∧
      (try_copy [.dblp 0] (putAll [[.dbl Double.d1_0], [.dbl Double.nan]] [])
        Mem.zero).mem.dbls 0 = Double.d1_0 ∧
      Double.nan ≠ Double.d1_0) := by
  decide

/-- C20 (amended): for every store reachable by `put` of tuples of Values and
by retrievals, and any two sequences of `put` calls that are permutations of
each other, all of tuples of Values, where no value stored or put is a
floating-point NaN or a negative zero, the two sequences leave the same store,
so that every subsequent sequence of `try_copy` / `try_take` calls returns the
same flags, binds the same values and leaves the same store after either; in
particular `put(a)` then `put(b)` equals `put(b)` then `put(a)`. Every `put`
of these sequences is one whose place C++ specifies. -/
theorem C20_put_order_irrelevant (s : List ptuple) (hs : Reachable s) (hz : NoNegZeroStore s)
    (as bs : List ptuple) (hperm : List.Perm as bs)
    (has : ∀ t ∈ as, literalTuple t = true ∧
      ∀ e ∈ t, pelem.isNaN e = false ∧ pelem.isNegZero e = false) :
    putAll as s = putAll bs s ∧
    (∀ calls mem, run calls (putAll as s) mem = run calls (putAll bs s) mem) ∧
    (∀ a ∈ as, ∀ b ∈ as, put b (put a s) = put a (put b s)) ∧
    (∀ ts t, (∀ x ∈ ts, literalTuple x = true ∧ ∀ e ∈ x, pelem.isNaN e = false) →
      (∀ e ∈ t, pelem.isNaN e = false) → InsertSpecified t (putAll ts s)) := by
  have h := putAll_eq_of_perm s hs hz as bs hperm has
  refine ⟨h, fun calls mem => by rw [h], ?_, fun ts t hts ht =>
    insertSpecified_of_reachable t (putAll ts s) (putAll_reachable ts s hs hts) ht⟩
  intro a ha b hb
  have hab : ∀ t ∈ [a, b], literalTuple t = true ∧
      ∀ e ∈ t, pelem.isNaN e = false ∧ pelem.isNegZero e = false := by
    intro t ht
    simp only [List.mem_cons, List.mem_singleton, List.not_mem_nil, or_false] at ht
    rcases ht with rfl | rfl
    · exact has t ha
    · exact has t hb
  exact putAll_eq_of_perm s hs hz [a, b] [b, a] (List.Perm.swap b a []) hab

/-- Witness of C20 (amended): `put(3, 1.2, "meow", 4)` and `put(44, "meow")`
in their two orders on the empty store. -/
theorem C20_witness :
    Reachable [] ∧ NoNegZeroStore [] ∧ List.Perm [tMeow4, tMeow2] [tMeow2, tMeow4] ∧
    (∀ t ∈ [tMeow4, tMeow2], literalTuple t = true ∧
      ∀ e ∈ t, pelem.isNaN e = false ∧ pelem.isNegZero e = false) ∧
    putAll [tMeow4, tMeow2] [] = putAll [tMeow2, tMeow4] [] ∧
    (∀ calls mem, run calls (putAll [tMeow4, tMeow2] []) mem =
      run calls (putAll [tMeow2, tMeow4] []) mem) ∧
    put tMeow2 (put tMeow4 []) = put tMeow4 (put tMeow2 []) := by
  have hz : NoNegZeroStore [] := fun t ht => by simp at ht
  have hall : ∀ t ∈ [tMeow4, tMeow2], literalTuple t = true ∧
      ∀ e ∈ t, pelem.isNaN e = false ∧ pelem.isNegZero e = false := by decide
  have h := C20_put_order_irrelevant [] Reachable.empty hz [tMeow4, tMeow2] [tMeow2, tMeow4]
    (List.Perm.swap tMeow2 tMeow4 []) hall
  exact ⟨Reachable.empty, hz, List.Perm.swap tMeow2 tMeow4 [], hall, h.1, h.2.1,
    h.2.2.1 tMeow4 (by simp) tMeow2 (by simp)⟩

/-! ## C14 -/

theorem lockState_step_none_of_ge (st : LockState) (i : Nat) (h : st.threads.length ≤ i) :
    st.step i = none := by
  simp [LockState.step, List.getElem?_eq_none h]

theorem explore_closed :
    ∀ st ∈ LockState.explore 8 [LockState.start [copytake_locks, put_locks]],
      st.threads.length = 2 ∧ st.deadlocked = false ∧
      (st.step 0).getD st ∈ LockState.explore 8 [LockState.start [copytake_locks, put_locks]] ∧
      (st.step 1).getD st ∈ LockState.explore 8 [LockState.start [copytake_locks, put_locks]] := by
  decide

theorem exec_mem_explore (schedule : List Nat) (st : LockState)
    (h : st ∈ LockState.explore 8 [LockState.start [copytake_locks, put_locks]]) :
    LockState.exec schedule st ∈
      LockState.explore 8 [LockState.start [copytake_locks, put_locks]] := by
  induction schedule generalizing st with
  | nil => exact h
  | cons i rest ih =>
    obtain ⟨hlen, _, h0, h1⟩ := explore_closed st h
    simp only [LockState.exec]
    apply ih
    match i with
    | 0 => exact h0
    | 1 => exact h1
    | k + 2 =>
      rw [lockState_step_none_of_ge st (k + 2) (by omega)]
      exact h

/-- C14 fails on the code of `simpletuplespace`. In `tuplespace`
(`src/tuplespace.hpp`) `put` and a turn of `copytake` take `cv_mutex` then
`mutex`, and no interleaving of the two ever leaves a thread stuck. In
`simpletuplespace` (`src/tuplespace.cpp`) `put` takes `mutex` then `cv_mutex`,
the opposite order: once `copytake` holds `cv_mutex` and `put` holds `mutex`,
each waits for the lock the other holds, and `put` never completes. -/
theorem C14_simple_put_deadlocks :
    (∀ schedule,
      (LockState.exec schedule (LockState.start [copytake_locks, put_locks])).deadlocked =
        false) ∧
    (LockState.exec [0, 1] (LockState.start [copytake_locks, simple_put_locks])).deadlocked =
      true ∧
    (LockState.exec [0, 1] (LockState.start [copytake_locks, simple_put_locks])).cv_mutex =
      some 0 ∧
    (LockState.exec [0, 1] (LockState.start [copytake_locks, simple_put_locks])).mutex =
      some 1 := by
  refine ⟨?_, by decide, by decide, by decide⟩
  intro schedule
  have hstart : LockState.start [copytake_locks, put_locks] ∈
      LockState.explore 8 [LockState.start [copytake_locks, put_locks]] := by decide
  exact (explore_closed _ (exec_mem_explore schedule _ hstart)).2.1

end tuplespace
